import Mathlib

/-!
Shallow embedding of `vscodeext.py` (goffline): version parsing
(`version_serial`), engine-range matching (`engine_match`), per-extension
version selection (`filter_version` / `find_version`), the download plan,
the pack-closure loop (`Extension.run`), and the redirect-based engine
version lookup (`vscode_latest_version`).

Python strings are modelled as `String` / `List Char`, Python ints as `Int`,
Python exceptions and `exit()` calls as `Except Err` / `Option`, and the
external collaborators (catalog query, pack-manifest reading, the HTTP
response of the redirect lookup) as function parameters.
-/

namespace Goffline

/-- Python `str.split(sep)` for a one-character separator (full split,
`"".split(sep)` gives `[""]`, i.e. `[[]]`). -/
def splitOnChar (sep : Char) : List Char → List (List Char)
  | [] => [[]]
  | c :: rest =>
    let r := splitOnChar sep rest
    if c = sep then [] :: r
    else
      match r with
      | h :: t => (c :: h) :: t
      | [] => [[c]]

/-- Rejoin pieces with a one-character separator (inverse of a split). -/
def joinSep (sep : Char) : List (List Char) → List Char
  | [] => []
  | [x] => x
  | x :: xs => x ++ sep :: joinSep sep xs

/-- Decimal value of a digit list. -/
def digitsVal (l : List Char) : Nat :=
  l.foldl (fun a c => a * 10 + (c.toNat - 48)) 0

/-- Python `int(s)` on its usual inputs: an optional sign followed by a
nonempty run of decimal digits.  (Surrounding whitespace and underscore
digit separators, which Python also accepts, are not modelled.) -/
def pyIntL (s : List Char) : Option Int :=
  match s with
  | '-' :: rest =>
    if rest ≠ [] ∧ rest.all Char.isDigit then some (-(digitsVal rest : Int)) else none
  | '+' :: rest =>
    if rest ≠ [] ∧ rest.all Char.isDigit then some (digitsVal rest : Int) else none
  | _ =>
    if s ≠ [] ∧ s.all Char.isDigit then some (digitsVal s : Int) else none

/-- A parsed version: `(major, minor, patch, optional pre-release suffix)`.
The suffix is kept as a character list (the tail of the third segment after
the first hyphen). -/
abbrev VersionT := Int × Int × Int × Option (List Char)

/-- The body of `version_serial` once the three parts `v[0]`, `v[1]`,
`v[2]` exist: if the third contains a hyphen the result is the 4-tuple
`(int(v[0]), int(v[1]), int(r[0]), r[1])` where
`r = v[2].split("-", maxsplit=1)`, otherwise the 3-tuple of ints (modelled
with suffix `none`). -/
def version_core (v0 v1 v2 : List Char) : Option VersionT :=
  if v2.contains '-' then
    match splitOnChar '-' v2 with
    | r0 :: r1 :: rrest =>
      match pyIntL v0, pyIntL v1, pyIntL r0 with
      | some x, some y, some z => some (x, y, z, some (joinSep '-' (r1 :: rrest)))
      | _, _, _ => none
    | _ => none
  else
    match pyIntL v0, pyIntL v1, pyIntL v2 with
    | some x, some y, some z => some (x, y, z, none)
    | _, _, _ => none

/-- `v = parts` when the split has at most three parts (`maxsplit=2` can
produce no more); with more parts, `maxsplit=2` keeps the first two and
rejoins the remainder (dots included) into the third. -/
def version_partsOf (parts : List (List Char)) : List (List Char) :=
  if parts.length ≤ 3 then parts else parts.take 2 ++ [joinSep '.' (parts.drop 2)]

/-- `version_serial` of the source, on a character list.
`v = version.split(".", maxsplit=2)`; accessing `v[2]` raises (`none`) when
there are fewer than three parts. -/
def version_serialL (s : List Char) : Option VersionT :=
  match version_partsOf (splitOnChar '.' s) with
  | [v0, v1, v2] => version_core v0 v1 v2
  | _ => none

/-- `version_serial` on a `String`. -/
def version_serial (s : String) : Option VersionT :=
  version_serialL s.data

/-- The nested `rr()` of `engine_match`, applied to the two parsed tuples:
fail on a 4-element pattern with suffix exactly `insiders`; majors must be
equal; pattern minor must be ≤ host minor; and a nonzero pattern patch must
not exceed the host patch within the same minor. -/
def engine_match_rr : VersionT → VersionT → Bool
  | (p0, p1, p2, ps), (v0, v1, v2, _) =>
    if ps = some "insiders".data then false
    else if p0 ≠ v0 then false
    else if p1 > v1 then false
    else if p1 = v1 ∧ p2 ≠ 0 ∧ p2 > v2 then false
    else true

/-- The non-wildcard part of `engine_match` on character lists: an empty
pattern raises (`pattern[0]`, modelled `none`); a pattern not starting with
`^` returns `False` on every branch; otherwise both the pattern (stripped
of `^`) and the engine are parsed (a parse failure raises) and `rr()`
decides. -/
def engine_matchL : List Char → List Char → Option Bool
  | [], _ => none
  | c :: rest, eng =>
    if c ≠ '^' then some false
    else
      match version_serialL rest, version_serialL eng with
      | some p, some v => some (engine_match_rr p v)
      | _, _ => none

/-- `engine_match` of the source: `"*"` always matches, everything else is
decided by `engine_matchL`. -/
def engine_match (pattern engine : String) : Option Bool :=
  if pattern = "*" then some true else engine_matchL pattern.data engine.data

/-- Lexicographic `<` on character lists (Python string comparison by code
point). -/
def charListLt : List Char → List Char → Bool
  | [], [] => false
  | [], _ :: _ => true
  | _ :: _, [] => false
  | x :: xs, y :: ys => if x < y then true else if y < x then false else charListLt xs ys

/-- Python tuple `<` on parsed versions: compare the integer triple
lexicographically; at an equal triple a 3-tuple (no suffix) is a strict
prefix of a 4-tuple and hence smaller, and two suffixes compare as
strings. -/
def versionLt : VersionT → VersionT → Bool
  | (a0, a1, a2, sa), (b0, b1, b2, sb) =>
    if a0 = b0 then
      if a1 = b1 then
        if a2 = b2 then
          match sa, sb with
          | none, none => false
          | none, some _ => true
          | some _, none => false
          | some x, some y => charListLt x y
        else decide (a2 < b2)
      else decide (a1 < b1)
    else decide (a0 < b0)

/-- `a ≤ b` for sorting: `a` may stay before `b` in an ascending stable
sort, i.e. `¬ (b < a)`. -/
def versionLe (a b : VersionT) : Bool := ! versionLt b a

/-- Insert into a sorted list, keeping an element before every strictly
larger one (the later-inserted element goes after equals: stability). -/
def sortInsert (le : α → α → Bool) (x : α) : List α → List α
  | [] => [x]
  | y :: ys => if le x y then x :: y :: ys else y :: sortInsert le x ys

/-- Stable ascending insertion sort; extensionally Python's `sorted`. -/
def sortList (le : α → α → Bool) : List α → List α
  | [] => []
  | x :: xs => sortInsert le x (sortList le xs)

/-- One step of the last-maximum fold: keep the running maximum, preferring
the new element on ties (`le b x` is true when the keys are equal). -/
def lmStep (le : α → α → Bool) (acc : Option α) (x : α) : Option α :=
  match acc with
  | none => some x
  | some b => if le b x then some x else some b

/-- The last element of the list with a maximal key under `le` (ties go to
the later element), computed by a fold; this is `sorted(l)[-1]` of a stable
ascending sort, `none` on the empty list. -/
def lastMax (le : α → α → Bool) (l : List α) : Option α :=
  l.foldl (lmStep le) none

/-- One published version of one extension, as read from the catalog
response: the fields of the JSON object that the source accesses.
`properties` is `none` when the `"properties"` key is absent. -/
structure VersionRec where
  version : String
  flags : String
  targetPlatform : Option String
  properties : Option (List (String × String))
  assetUri : String
  lastUpdated : String
deriving DecidableEq, Repr

/-- One extension record of the catalog response. -/
structure ExtRecord where
  publisherName : String
  extensionName : String
  categories : List String
  versions : List VersionRec
deriving DecidableEq, Repr

/-- The descriptor tuple stored in `self.downloads`:
`(version, engine property, asset url, lastUpdated)`. -/
structure Download where
  version : String
  engine : Option String
  url : String
  lastUpdated : String
deriving DecidableEq, Repr

/-- The fatal outcomes of the source: `exit()` on an unexpected flags value,
a raised exception from a malformed version string, `IndexError` on
`versions[-1]` of an empty list (no compatible version), the failed
`assert` on an inconsistent re-add to `self.downloads`, and the unpack /
dict-lookup errors of the `vadimcn.vscode-lldb` special case. -/
inductive Err where
  | badFlags
  | malformedVersion
  | noCompatible
  | consistency
  | unpackError
  | keyError
deriving DecidableEq, Repr

deriving instance DecidableEq for Except

/-- `get_property`: first property with the given key, else `None`. -/
def get_property (v : VersionRec) (name : String) : Option String :=
  match v.properties with
  | none => none
  | some props => (props.find? (fun p => p.1 == name)).map (·.2)

/-- The generator `filter_version`, run to completion (the source consumes
it whole via `sorted`): versions with an unexpected flags value abort the
process; a version is skipped when its platform tag differs from the
requested platform, when its pre-release property is `"true"`, or when its
engine property is absent, empty, or fails `engine_match`; a crash inside
`engine_match` aborts. -/
def filter_version (engine platform : String) : List VersionRec → Except Err (List VersionRec)
  | [] => .ok []
  | v :: rest =>
    if v.flags ≠ "validated" ∧ v.flags ≠ "none" then .error Err.badFlags
    else if v.targetPlatform.getD platform ≠ platform then filter_version engine platform rest
    else if get_property v "Microsoft.VisualStudio.Code.PreRelease" = some "true" then
      filter_version engine platform rest
    else
      match get_property v "Microsoft.VisualStudio.Code.Engine" with
      | none => filter_version engine platform rest
      | some ev =>
        if ev = "" then filter_version engine platform rest
        else
          match engine_match ev engine with
          | none => .error Err.malformedVersion
          | some true =>
            match filter_version engine platform rest with
            | .ok r => .ok (v :: r)
            | .error e => .error e
          | some false => filter_version engine platform rest

/-- Attach the sort key `version_serial(v["version"])` to every surviving
version; a malformed version string raises inside `sorted`'s key
computation. -/
def keyedOf : List VersionRec → Except Err (List (VersionRec × VersionT))
  | [] => .ok []
  | v :: rest =>
    match version_serial v.version with
    | some k =>
      match keyedOf rest with
      | .ok r => .ok ((v, k) :: r)
      | .error e => .error e
    | none => .error Err.malformedVersion

/-- Sort order on keyed versions: by the parsed version tuple. -/
def pairLe (p q : VersionRec × VersionT) : Bool := versionLe p.2 q.2

/-- Lines 224–227 of the source: `sorted(filter_version(...), key=version_serial)`
followed by `versions[-1]`, which raises `IndexError` (no compatible
version) when no version survives. -/
def select_version (engine platform : String) (versions : List VersionRec) :
    Except Err VersionRec :=
  match filter_version engine platform versions with
  | .error e => .error e
  | .ok survivors =>
    match keyedOf survivors with
    | .error e => .error e
    | .ok keyed =>
      match (sortList pairLe keyed).getLast? with
      | some p => .ok p.1
      | none => .error Err.noCompatible

/-- `self.downloads[vsix]` on an insertion-ordered dict. -/
def planFind (downloads : List (String × Download)) (vsix : String) : Option Download :=
  (downloads.find? (fun e => e.1 == vsix)).map (·.2)

/-- Lines 250–253 of the source: `assert self.downloads[vsix] == download`
when the filename is already present, then `self.downloads[vsix] = download`
(a no-op when the existing descriptor is equal; a new key is appended in
insertion order). -/
def plan_add (downloads : List (String × Download)) (vsix : String) (download : Download) :
    Except Err (List (String × Download)) :=
  match planFind downloads vsix with
  | some existing => if existing = download then .ok downloads else .error Err.consistency
  | none => .ok (downloads ++ [(vsix, download)])

/-- The nested `find_version(extension, platform)`: select the best
surviving version, derive the asset url and target platform (overridden for
the hard-coded `vadimcn.vscode-lldb`), build the filename — with the
platform tag exactly when `target_platform` is set — and record the
descriptor in the plan. -/
def find_version (name engine : String) (versions : List VersionRec) (platform : String)
    (downloads : List (String × Download)) :
    Except Err (String × List (String × Download)) :=
  match select_version engine platform versions with
  | .error e => .error e
  | .ok version =>
    let asset0 := version.assetUri ++ "/Microsoft.VisualStudio.Services.VSIXPackage"
    let tp0 := version.targetPlatform
    let ovr : Except Err (String × Option String) :=
      if name = "vadimcn.vscode-lldb" then
        match splitOnChar '-' platform.data with
        | [osPart, archPart] =>
          match (if archPart = "x64".data then some "x86_64"
                 else if archPart = "arm64".data then some "aarch64" else none) with
          | some arch2 =>
            .ok ("https://github.com/vadimcn/vscode-lldb/releases/download/v" ++ version.version
                   ++ "/codelldb-" ++ arch2 ++ "-" ++ String.mk osPart ++ ".vsix",
                 some platform)
          | none => .error Err.keyError
        | _ => .error Err.unpackError
      else .ok (asset0, tp0)
    match ovr with
    | .error e => .error e
    | .ok (asset_uri, target_platform) =>
      let vsix :=
        match target_platform with
        | some tp => name ++ "-" ++ tp ++ "-" ++ version.version ++ ".vsix"
        | none => name ++ "-" ++ version.version ++ ".vsix"
      let download : Download :=
        ⟨version.version, get_property version "Microsoft.VisualStudio.Code.Engine",
          asset_uri, version.lastUpdated⟩
      match plan_add downloads vsix download with
      | .error e => .error e
      | .ok downloads2 => .ok (vsix, downloads2)

/-- Python `set.add` on an insertion-ordered list model of a set. -/
def setInsert (l : List String) (x : String) : List String :=
  if x ∈ l then l else l ++ [x]

/-- Python `set.update`. -/
def setUnion (l : List String) (xs : List String) : List String :=
  xs.foldl setInsert l

/-- `_get_download(extension)`: resolve the extension once for
`linux-x64` and once for `linux-arm64` (the second call sees the plan of
the first) and return the set of the two filenames. -/
def Extension_get_download (engine : String) (ext : ExtRecord)
    (downloads : List (String × Download)) :
    Except Err (List String × List (String × Download)) :=
  let name := ext.publisherName ++ "." ++ ext.extensionName
  match find_version name engine ext.versions "linux-x64" downloads with
  | .error e => .error e
  | .ok (f1, d1) =>
    match find_version name engine ext.versions "linux-arm64" d1 with
    | .error e => .error e
    | .ok (f2, d2) => .ok (setInsert (setInsert [] f1) f2, d2)

/-- The mutable state of one `Extension.run`: the accumulated
`self.all_extensions` set, and the per-pass `self.downloads` dict and
`self.packs` set. -/
structure RunSt where
  all_extensions : List String
  downloads : List (String × Download)
  packs : List String
deriving DecidableEq, Repr

/-- `_get_downloads(slugs)`: reset `self.downloads` and `self.packs`; on a
nonempty slug set, query the catalog (an external collaborator passed as a
function) and, for every returned extension, resolve its artifacts, extend
the pack set when the extension is categorized `"Extension Packs"`, and
extend `self.all_extensions` with the resolved filenames. -/
def Extension_get_downloads (query : List String → List (List ExtRecord)) (engine : String)
    (slugs : List String) (all_ext : List String) : Except Err RunSt :=
  if slugs = [] then .ok ⟨all_ext, [], []⟩
  else
    (query slugs).foldlM (fun st res =>
      res.foldlM (fun (st : RunSt) ext => do
        let (vsixs, downloads) ← Extension_get_download engine ext st.downloads
        let packs := if "Extension Packs" ∈ ext.categories then setUnion st.packs vsixs
                     else st.packs
        .ok (⟨setUnion st.all_extensions vsixs, downloads, packs⟩ : RunSt)) st)
      ⟨all_ext, [], []⟩

/-- The `while self.packs:` loop of `Extension.run`, with an explicit fuel
(`.ok none` when the fuel runs out with the loop still going).  The pack
manifests (`extension/package.json` of a downloaded archive) are an
external collaborator, passed as a function from artifact filename to the
`extensionPack` identifier list.  The second component is the trace of
slug lists passed to the external catalog query. -/
def Extension_run_loop (query : List String → List (List ExtRecord))
    (manifest : String → List String) (engine : String) :
    Nat → RunSt → Except Err (Option RunSt) × List (List String)
  | 0, _ => (.ok none, [])
  | Nat.succ fuel, st =>
    if st.packs = [] then (.ok (some st), [])
    else
      let newExts := st.downloads.foldl
        (fun acc kv => if kv.1 ∈ st.packs then setUnion acc (manifest kv.1) else acc) []
      let newExts := newExts.filter (fun x => x ∉ st.all_extensions)
      match Extension_get_downloads query engine newExts st.all_extensions with
      | .error e => (.error e, if newExts = [] then [] else [newExts])
      | .ok st2 =>
        let r := Extension_run_loop query manifest engine fuel st2
        (r.1, (if newExts = [] then [] else [newExts]) ++ r.2)

/-- `Extension.run(dest_dir, slugs)` without the byte downloads (external):
initialize `all_extensions`, resolve the seed slugs, then iterate the pack
closure.  Returns the outcome and the trace of catalog queries. -/
def Extension_run (query : List String → List (List ExtRecord))
    (manifest : String → List String) (engine : String) (slugs : List String) (fuel : Nat) :
    Except Err (Option RunSt) × List (List String) :=
  match Extension_get_downloads query engine slugs [] with
  | .error e => (.error e, if slugs = [] then [] else [slugs])
  | .ok st =>
    let r := Extension_run_loop query manifest engine fuel st
    (r.1, (if slugs = [] then [] else [slugs]) ++ r.2)

/-- `\w` of the redirect pattern (ASCII approximation of Python's word
character class). -/
def isWordCharB (c : Char) : Bool := c.isAlphanum || c = '_'

/-- `[a-f0-9]` of the redirect pattern. -/
def isHexB (c : Char) : Bool := c.isDigit || ('a' ≤ c && c ≤ 'f')

/-- `[\d.]` of the redirect pattern. -/
def isDigitDotB (c : Char) : Bool := c.isDigit || c = '.'

/-- Does `.zip` (an arbitrary character, then the literal `zip`) match at
the front of the list? -/
def dotZipAt : List Char → Bool
  | _ :: 'z' :: 'i' :: 'p' :: _ => true
  | _ => false

/-- Backtracking for the greedy `([\d.]+).zip` tail of the pattern: `rrev`
is the reversed remaining candidate for the version group; try the longest
candidate first, moving one trailing character at a time onto the tail. -/
def verBacktrack : List Char → List Char → Option (List Char)
  | [], _ => none
  | c :: rrev, tail =>
    if dotZipAt tail then some ((c :: rrev).reverse)
    else verBacktrack rrev (c :: tail)

/-- The greedy `([\d.]+).zip` tail: take the maximal digits-and-dots run
and backtrack it so an arbitrary character and the literal `zip` follow. -/
def redirectVer (rest4 : List Char) : Option (List Char) :=
  verBacktrack (rest4.takeWhile isDigitDotB).reverse
    (rest4.drop (rest4.takeWhile isDigitDotB).length)

/-- The part of the redirect pattern after `/(\w+)/`: exactly 40 lower-case
hex characters (the commit group), the literal `/VSCode-win32-x64-`, then
the version group. -/
def redirectTail (rest2 : List Char) : Option (List Char × List Char) :=
  if (rest2.take 40).length = 40 ∧ (rest2.take 40).all isHexB then
    if (rest2.drop 40).take "/VSCode-win32-x64-".data.length = "/VSCode-win32-x64-".data then
      match redirectVer ((rest2.drop 40).drop "/VSCode-win32-x64-".data.length) with
      | some ver => some (rest2.take 40, ver)
      | none => none
    else none
  else none

/-- The part of the redirect pattern after the leading `/`: a maximal
nonempty `\w+` run (the channel group) followed by `/` and the tail. -/
def redirectBody (rest : List Char) : Option (List Char × List Char × List Char) :=
  if rest.takeWhile isWordCharB = [] then none
  else
    match rest.drop (rest.takeWhile isWordCharB).length with
    | c :: rest2 =>
      if c = '/' then
        match redirectTail rest2 with
        | some (hex, ver) => some (rest.takeWhile isWordCharB, hex, ver)
        | none => none
      else none
    | [] => none

/-- One anchored attempt of
`re.search(r"/(\w+)/([a-f0-9]{40})/VSCode-win32-x64-([\d.]+).zip", url)`
at the front of the list.  Returns the three groups
`(channel, commit, version)`. -/
def redirectMatchAt (cs : List Char) : Option (List Char × List Char × List Char) :=
  match cs with
  | [] => none
  | c :: rest => if c = '/' then redirectBody rest else none

/-- `re.search`: try every start position left to right. -/
def redirectSearch : List Char → Option (List Char × List Char × List Char)
  | [] => none
  | c :: t =>
    match redirectMatchAt (c :: t) with
    | some r => some r
    | none => redirectSearch t

/-- `vscode_latest_version(channel)` with the HTTP collaborator explicit:
`status` and `location` are the response status code and redirect target.
`exit(2)` (modelled `none`) unless the status is 302, the pattern matches
somewhere in the target, and the first group equals the requested channel;
on success returns `(version, commit_id)`. -/
def vscode_latest_version (channel : String) (status : Nat) (location : String) :
    Option (String × String) :=
  if status ≠ 302 then none
  else
    match redirectSearch location.data with
    | none => none
    | some (ch, commit, ver) =>
      if ch ≠ channel.data then none
      else some (String.mk ver, String.mk commit)

/-- The per-version keep decision of `filter_version` as a boolean, for
versions on which no fatal fault fires: platform tag absent or equal to the
requested platform, not flagged pre-release, and a nonempty engine property
that matches the host engine. -/
def keepB (engine platform : String) (v : VersionRec) : Bool :=
  (v.targetPlatform.getD platform == platform)
    && !(get_property v "Microsoft.VisualStudio.Code.PreRelease" == some "true")
    && (match get_property v "Microsoft.VisualStudio.Code.Engine" with
        | some ev => ev ≠ "" && engine_match ev engine == some true
        | none => false)

/-! ### Concrete fixtures used by witnesses and counterexamples -/

/-- A validated, platform-agnostic version record with the given version
string, engine range `"*"` and asset uri. -/
def mkVersion (ver asset : String) : VersionRec :=
  ⟨ver, "validated", none, some [("Microsoft.VisualStudio.Code.Engine", "*")], asset,
    "2024-01-01T00:00:00Z"⟩

/-- An extension record with a single `mkVersion` version. -/
def mkExt (pub name : String) (cats : List String) (asset : String) : ExtRecord :=
  ⟨pub, name, cats, [mkVersion "1.0.0" asset]⟩

/-- C3 fixture: an untagged release `1.2.3`. -/
def c3_untagged : VersionRec := mkVersion "1.2.3" "https://u"

/-- C3 fixture: the same numeric triple with a pre-release-style suffix. -/
def c3_tagged : VersionRec := mkVersion "1.2.3-beta" "https://t"

/-- C2 witness fixture: a version flagged pre-release. -/
def c2_pre : VersionRec :=
  ⟨"9.9.9", "validated", none,
    some [("Microsoft.VisualStudio.Code.PreRelease", "true"),
          ("Microsoft.VisualStudio.Code.Engine", "*")], "https://p", "2024-01-01T00:00:00Z"⟩

/-- C2 witness fixture: a version whose engine range does not match. -/
def c2_incompat : VersionRec :=
  ⟨"2.0.0", "validated", none,
    some [("Microsoft.VisualStudio.Code.Engine", "^2.0.0")], "https://i",
    "2024-01-01T00:00:00Z"⟩

/-- C7 fixture: a platform-agnostic version of the overridden extension. -/
def c7_version : VersionRec := mkVersion "1.2.3" "https://lldb"

/-- C6 fixture: a pack that lists itself as its only member. -/
def c6_ext : ExtRecord := mkExt "a" "a" ["Extension Packs"] "https://a"

/-- C6 fixture: the catalog collaborator. -/
def c6_query : List String → List (List ExtRecord) :=
  fun slugs => if slugs = ["a.a"] then [[c6_ext]] else []

/-- C6 fixture: the pack-manifest collaborator (the pack contains itself). -/
def c6_manifest : String → List String :=
  fun f => if f = "a.a-1.0.0.vsix" then ["a.a"] else []

/-- C6 fixture: the state reached after resolving the seed. -/
def c6_state : RunSt :=
  ⟨["a.a-1.0.0.vsix"],
   [("a.a-1.0.0.vsix",
     ⟨"1.0.0", some "*", "https://a/Microsoft.VisualStudio.Services.VSIXPackage",
      "2024-01-01T00:00:00Z"⟩)],
   ["a.a-1.0.0.vsix"]⟩

/-- C5 fixture: pack `a.a` containing `b.b` and `c.c`; pack `b.b`
containing `c.c`; plain `c.c`. -/
def c5_query : List String → List (List ExtRecord) :=
  fun slugs =>
    if slugs = ["a.a"] then [[mkExt "a" "a" ["Extension Packs"] "https://a"]]
    else if slugs = ["b.b", "c.c"] then
      [[mkExt "b" "b" ["Extension Packs"] "https://b", mkExt "c" "c" [] "https://c"]]
    else if slugs = ["c.c"] then [[mkExt "c" "c" [] "https://c"]]
    else []

/-- C5 fixture: the pack manifests. -/
def c5_manifest : String → List String :=
  fun f =>
    if f = "a.a-1.0.0.vsix" then ["b.b", "c.c"]
    else if f = "b.b-1.0.0.vsix" then ["c.c"]
    else []

/-- C4 fixture: pack `a.a` (asset `one`) containing pack `b.b`, which lists
`a.a` and `c.c`; the batched query for `["a.a", "c.c"]` returns `a.a` with
a different asset (`two`) and no pack category. -/
def c4_query : List String → List (List ExtRecord) :=
  fun slugs =>
    if slugs = ["a.a"] then [[mkExt "a" "a" ["Extension Packs"] "https://one"]]
    else if slugs = ["b.b"] then [[mkExt "b" "b" ["Extension Packs"] "https://b"]]
    else if slugs = ["a.a", "c.c"] then
      [[mkExt "a" "a" [] "https://two", mkExt "c" "c" [] "https://c"]]
    else []

/-- C4 fixture: the pack manifests. -/
def c4_manifest : String → List String :=
  fun f =>
    if f = "a.a-1.0.0.vsix" then ["b.b"]
    else if f = "b.b-1.0.0.vsix" then ["a.a", "c.c"]
    else []

/-- C4 fixture: the descriptor derived for `a.a-1.0.0.vsix` on the first
pass. -/
def c4_first : Download :=
  ⟨"1.0.0", some "*", "https://one/Microsoft.VisualStudio.Services.VSIXPackage",
   "2024-01-01T00:00:00Z"⟩

/-- C4 fixture: the structurally different descriptor derived for the same
filename on the third pass. -/
def c4_third : Download :=
  ⟨"1.0.0", some "*", "https://two/Microsoft.VisualStudio.Services.VSIXPackage",
   "2024-01-01T00:00:00Z"⟩

/-- C10 witness fixture: an extension with two platform-agnostic
versions. -/
def c10_ext : ExtRecord :=
  ⟨"pub", "ext", [], [mkVersion "1.0.0" "https://old", mkVersion "1.2.0" "https://new"]⟩

/-- The per-version contribution to the keyed survivor list: the version
paired with its parsed key when it passes the filter, `none` otherwise. -/
def keyedFn (engine platform : String) (v : VersionRec) :
    Option (VersionRec × VersionT) :=
  if keepB engine platform v then (version_serial v.version).map (fun k => (v, k))
  else none

example : version_serial "1.2.3" = some (1, 2, 3, none) := by decide
example : version_serial "1.2.3-a.b" = some (1, 2, 3, some "a.b".data) := by decide
example : version_serial "1.2" = none := by decide
example : version_serial "1.2.x" = none := by decide
example : version_serial "1.2.3.4" = none := by decide
example : engine_match "*" "zzz" = some true := by decide
example : engine_match "1.50.0" "1.60.0" = some false := by decide
example : engine_match "^1.50.0" "1.60.3" = some true := by decide
example : engine_match "^1.50.0" "1.49.9" = some false := by decide
example : engine_match "^1.50.3" "1.50.2" = some false := by decide
example : engine_match "^1.50.0" "1.50.0" = some true := by decide
example : engine_match "^1.50.0-insiders" "1.60.0" = some false := by decide

/-! ## Order facts for the sort key -/

theorem charListLt_nil_right : ∀ y : List Char, charListLt y [] = false
  | [] => rfl
  | _ :: _ => rfl

theorem charListLt_irrefl : ∀ l, charListLt l l = false
  | [] => rfl
  | c :: rest => by
    simp only [charListLt, lt_irrefl, if_false]
    exact charListLt_irrefl rest

theorem charListLt_asymm : ∀ x y, charListLt x y = true → charListLt y x = false
  | [], y, _ => charListLt_nil_right y
  | _ :: _, [], h => by rw [charListLt_nil_right] at h; cases h
  | a :: xs, b :: ys, h => by
    simp only [charListLt] at h ⊢
    rcases lt_trichotomy a b with hab | hab | hab
    · rw [if_neg (not_lt_of_gt hab), if_pos hab]
    · subst hab
      simp only [lt_irrefl, if_false] at h ⊢
      exact charListLt_asymm xs ys h
    · rw [if_neg (not_lt_of_gt hab), if_pos hab] at h
      cases h

theorem charListLt_trans : ∀ x y z, charListLt x y = true → charListLt y z = true →
    charListLt x z = true
  | x, y, [], _, h2 => by rw [charListLt_nil_right] at h2; cases h2
  | [], y, _ :: _, _, _ => rfl
  | _ :: _, [], z, h1, _ => by rw [charListLt_nil_right] at h1; cases h1
  | a :: xs, b :: ys, c :: zs, h1, h2 => by
    simp only [charListLt] at h1 h2 ⊢
    rcases lt_trichotomy a b with hab | hab | hab
    · rcases lt_trichotomy b c with hbc | hbc | hbc
      · rw [if_pos (lt_trans hab hbc)]
      · subst hbc; rw [if_pos hab]
      · rw [if_neg (not_lt_of_gt hbc), if_pos hbc] at h2
        cases h2
    · subst hab
      rcases lt_trichotomy a c with hbc | hbc | hbc
      · rw [if_pos hbc]
      · subst hbc
        simp only [lt_irrefl, if_false] at h1 h2 ⊢
        exact charListLt_trans xs ys zs h1 h2
      · rw [if_neg (not_lt_of_gt hbc), if_pos hbc] at h2
        cases h2
    · rw [if_neg (not_lt_of_gt hab), if_pos hab] at h1
      cases h1

theorem charListLt_conn : ∀ x y, charListLt x y = false → charListLt y x = false → x = y
  | [], [], _, _ => rfl
  | [], _ :: _, h1, _ => by cases h1
  | _ :: _, [], _, h2 => by cases h2
  | a :: xs, b :: ys, h1, h2 => by
    simp only [charListLt] at h1 h2
    rcases lt_trichotomy a b with hab | hab | hab
    · rw [if_pos hab] at h1; cases h1
    · subst hab
      simp only [lt_irrefl, if_false] at h1 h2
      rw [charListLt_conn xs ys h1 h2]
    · rw [if_neg (not_lt_of_gt hab), if_pos hab] at h2
      cases h2

theorem versionLt_asymm (a b : VersionT) (h : versionLt a b = true) : versionLt b a = false := by
  obtain ⟨a0, a1, a2, sa⟩ := a
  obtain ⟨b0, b1, b2, sb⟩ := b
  simp only [versionLt] at h ⊢
  by_cases h0 : a0 = b0
  · subst h0
    rw [if_pos rfl] at h ⊢
    by_cases h1 : a1 = b1
    · subst h1
      rw [if_pos rfl] at h ⊢
      by_cases h2 : a2 = b2
      · subst h2
        rw [if_pos rfl] at h ⊢
        match sa, sb, h with
        | none, none, h => cases h
        | none, some y, _ => rfl
        | some x, none, h => cases h
        | some x, some y, h => exact charListLt_asymm x y h
      · rw [if_neg h2, decide_eq_true_eq] at h
        rw [if_neg (fun e => h2 e.symm), decide_eq_false_iff_not]
        omega
    · rw [if_neg h1, decide_eq_true_eq] at h
      rw [if_neg (fun e => h1 e.symm), decide_eq_false_iff_not]
      omega
  · rw [if_neg h0, decide_eq_true_eq] at h
    rw [if_neg (fun e => h0 e.symm), decide_eq_false_iff_not]
    omega

theorem versionLt_trans (a b c : VersionT) (h1 : versionLt a b = true)
    (h2 : versionLt b c = true) : versionLt a c = true := by
  obtain ⟨a0, a1, a2, sa⟩ := a
  obtain ⟨b0, b1, b2, sb⟩ := b
  obtain ⟨c0, c1, c2, sc⟩ := c
  simp only [versionLt] at h1 h2 ⊢
  by_cases e0ab : a0 = b0 <;> by_cases e0bc : b0 = c0
  · subst e0ab; subst e0bc
    rw [if_pos rfl] at h1 h2 ⊢
    by_cases e1ab : a1 = b1 <;> by_cases e1bc : b1 = c1
    · subst e1ab; subst e1bc
      rw [if_pos rfl] at h1 h2 ⊢
      by_cases e2ab : a2 = b2 <;> by_cases e2bc : b2 = c2
      · subst e2ab; subst e2bc
        rw [if_pos rfl] at h1 h2 ⊢
        match sa, sb, sc, h1, h2 with
        | none, none, none, h1, _ => cases h1
        | none, none, some _, h1, _ => cases h1
        | none, some _, none, _, h2 => cases h2
        | none, some y, some z, _, _ => rfl
        | some _, none, _, h1, _ => cases h1
        | some _, some _, none, _, h2 => cases h2
        | some x, some y, some z, h1, h2 => exact charListLt_trans x y z h1 h2
      · subst e2ab
        rw [if_neg e2bc] at h2 ⊢; exact h2
      · subst e2bc
        rw [if_neg e2ab] at h1 ⊢; exact h1
      · rw [if_neg e2ab] at h1; rw [if_neg e2bc] at h2
        rw [decide_eq_true_eq] at h1 h2
        have : a2 ≠ c2 := by omega
        rw [if_neg this, decide_eq_true_eq]
        omega
    · subst e1ab
      rw [if_neg e1bc] at h2 ⊢; exact h2
    · subst e1bc
      rw [if_neg e1ab] at h1 ⊢; exact h1
    · rw [if_neg e1ab] at h1; rw [if_neg e1bc] at h2
      rw [decide_eq_true_eq] at h1 h2
      have : a1 ≠ c1 := by omega
      rw [if_neg this, decide_eq_true_eq]
      omega
  · subst e0ab
    rw [if_neg e0bc] at h2 ⊢; exact h2
  · subst e0bc
    rw [if_neg e0ab] at h1 ⊢; exact h1
  · rw [if_neg e0ab] at h1; rw [if_neg e0bc] at h2
    rw [decide_eq_true_eq] at h1 h2
    have : a0 ≠ c0 := by omega
    rw [if_neg this, decide_eq_true_eq]
    omega

theorem versionLt_conn (a b : VersionT) (h1 : versionLt a b = false)
    (h2 : versionLt b a = false) : a = b := by
  obtain ⟨a0, a1, a2, sa⟩ := a
  obtain ⟨b0, b1, b2, sb⟩ := b
  simp only [versionLt] at h1 h2
  by_cases e0 : a0 = b0
  · subst e0
    rw [if_pos rfl] at h1 h2
    by_cases e1 : a1 = b1
    · subst e1
      rw [if_pos rfl] at h1 h2
      by_cases e2 : a2 = b2
      · subst e2
        rw [if_pos rfl] at h1 h2
        match sa, sb, h1, h2 with
        | none, none, _, _ => rfl
        | none, some y, h1, _ => cases h1
        | some x, none, _, h2 => cases h2
        | some x, some y, h1, h2 => rw [charListLt_conn x y h1 h2]
      · exfalso
        rw [if_neg e2, decide_eq_false_iff_not] at h1
        rw [if_neg (fun e => e2 e.symm), decide_eq_false_iff_not] at h2
        omega
    · exfalso
      rw [if_neg e1, decide_eq_false_iff_not] at h1
      rw [if_neg (fun e => e1 e.symm), decide_eq_false_iff_not] at h2
      omega
  · exfalso
    rw [if_neg e0, decide_eq_false_iff_not] at h1
    rw [if_neg (fun e => e0 e.symm), decide_eq_false_iff_not] at h2
    omega

theorem versionLe_total (a b : VersionT) : versionLe a b = true ∨ versionLe b a = true := by
  by_cases h : versionLt b a = true
  · right
    simp only [versionLe, versionLt_asymm b a h, Bool.not_false]
  · left
    rw [Bool.not_eq_true] at h
    simp [versionLe, h]

theorem versionLe_trans (a b c : VersionT) (h1 : versionLe a b = true)
    (h2 : versionLe b c = true) : versionLe a c = true := by
  simp only [versionLe, Bool.not_eq_true'] at h1 h2 ⊢
  by_contra hca
  rw [Bool.not_eq_false] at hca
  by_cases hab : versionLt a b = true
  · have := versionLt_trans c a b hca hab
    rw [this] at h2; cases h2
  · rw [Bool.not_eq_true] at hab
    have := versionLt_conn a b hab h1
    subst this
    rw [hca] at h2; cases h2

theorem pairLe_total (p q : VersionRec × VersionT) : pairLe p q = true ∨ pairLe q p = true :=
  versionLe_total p.2 q.2

theorem pairLe_trans (p q r : VersionRec × VersionT) (h1 : pairLe p q = true)
    (h2 : pairLe q r = true) : pairLe p r = true :=
  versionLe_trans p.2 q.2 r.2 h1 h2

/-! ## `sorted(...)[-1]` is the last maximum -/

theorem lastMax_concat (le : α → α → Bool) (l : List α) (x : α) :
    lastMax le (l ++ [x]) = lmStep le (lastMax le l) x := by
  simp [lastMax, List.foldl_append]

theorem lastMax_none_iff (le : α → α → Bool) (l : List α) :
    lastMax le l = none ↔ l = [] := by
  induction l using List.reverseRecOn with
  | nil => simp [lastMax]
  | append_singleton l x ih =>
    rw [lastMax_concat]
    constructor
    · intro h
      exfalso
      cases hm : lastMax le l with
      | none => rw [hm] at h; simp [lmStep] at h
      | some b =>
        rw [hm] at h
        simp only [lmStep] at h
        split at h <;> cases h
    · intro h
      exact absurd h (by simp)

theorem lastMax_mem (le : α → α → Bool) (l : List α) (m : α) (h : lastMax le l = some m) :
    m ∈ l := by
  induction l using List.reverseRecOn generalizing m with
  | nil => cases h
  | append_singleton l x ih =>
    rw [lastMax_concat] at h
    cases hm : lastMax le l with
    | none =>
      rw [hm] at h
      simp only [lmStep, Option.some.injEq] at h
      rw [← h]
      exact List.mem_append_right l (by simp)
    | some b =>
      rw [hm] at h
      simp only [lmStep] at h
      split at h
      · rw [Option.some.injEq] at h
        rw [← h]
        exact List.mem_append_right l (by simp)
      · rw [Option.some.injEq] at h
        rw [← h]
        exact List.mem_append_left _ (ih b hm)

theorem lastMax_isUB (le : α → α → Bool)
    (htot : ∀ a b, le a b = true ∨ le b a = true)
    (htr : ∀ a b c, le a b = true → le b c = true → le a c = true)
    (l : List α) (m : α) (h : lastMax le l = some m) :
    ∀ y ∈ l, le y m = true := by
  have hrefl : ∀ a : α, le a a = true := fun a => (htot a a).elim id id
  induction l using List.reverseRecOn generalizing m with
  | nil => cases h
  | append_singleton l x ih =>
    rw [lastMax_concat] at h
    intro y hy
    cases hm : lastMax le l with
    | none =>
      have hl : l = [] := (lastMax_none_iff le l).mp hm
      subst hl
      rw [hm] at h
      simp only [lmStep, Option.some.injEq] at h
      simp only [List.nil_append, List.mem_singleton] at hy
      rw [hy, ← h]
      exact hrefl x
    | some b =>
      rw [hm] at h
      simp only [lmStep] at h
      by_cases hbx : le b x = true
      · rw [if_pos hbx, Option.some.injEq] at h
        rcases List.mem_append.mp hy with hyl | hyx
        · have hyb := ih b hm y hyl
          rw [← h]
          exact htr y b x hyb hbx
        · have hx : y = x := by simpa using hyx
          rw [hx, ← h]
          exact hrefl x
      · rw [if_neg hbx, Option.some.injEq] at h
        rcases List.mem_append.mp hy with hyl | hyx
        · rw [← h]
          exact ih b hm y hyl
        · have hx : y = x := by simpa using hyx
          rw [hx, ← h]
          exact (htot x b).resolve_right hbx

theorem lastMax_foldl_some (le : α → α → Bool)
    (htot : ∀ a b, le a b = true ∨ le b a = true)
    (htr : ∀ a b c, le a b = true → le b c = true → le a c = true) :
    ∀ (l : List α) (a : α),
      l.foldl (lmStep le) (some a) =
        some (match lastMax le l with
              | none => a
              | some m => if le a m then m else a)
  | [], a => by simp [lastMax]
  | y :: ys, a => by
    have hstep : lmStep le (some a) y = some (if le a y then y else a) := by
      simp only [lmStep]
      split <;> rfl
    have hys := lastMax_foldl_some le htot htr ys
    have hl : lastMax le (y :: ys) = ys.foldl (lmStep le) (some y) := by
      simp [lastMax, List.foldl_cons, lmStep]
    rw [List.foldl_cons, hstep, hys (if le a y then y else a), hl, hys y]
    cases hm : lastMax le ys with
    | none => rfl
    | some m =>
      simp only
      by_cases hay : le a y = true
      · rw [if_pos hay]
        by_cases hym : le y m = true
        · rw [if_pos hym]
          have ham : le a m = true := htr a y m hay hym
          rw [if_pos ham]
        · rw [if_neg hym, if_pos hay]
      · rw [if_neg hay]
        by_cases hym : le y m = true
        · rw [if_pos hym]
        · rw [if_neg hym, if_neg hay]
          by_cases ham : le a m = true
          · exfalso
            have hya : le y a = true := (htot a y).resolve_left hay
            exact hym (htr y a m hya ham)
          · rw [if_neg ham]

theorem lastMax_cons (le : α → α → Bool)
    (htot : ∀ a b, le a b = true ∨ le b a = true)
    (htr : ∀ a b c, le a b = true → le b c = true → le a c = true)
    (x : α) (l : List α) :
    lastMax le (x :: l) =
      some (match lastMax le l with
            | none => x
            | some m => if le x m then m else x) := by
  have : lastMax le (x :: l) = l.foldl (lmStep le) (some x) := by
    simp [lastMax, List.foldl_cons, lmStep]
  rw [this, lastMax_foldl_some le htot htr l x]

theorem sortInsert_ne_nil (le : α → α → Bool) (x : α) (s : List α) :
    sortInsert le x s ≠ [] := by
  match s with
  | [] => simp [sortInsert]
  | y :: ys =>
    simp only [sortInsert]
    split <;> simp

theorem mem_sortInsert (le : α → α → Bool) (x : α) (s : List α) (y : α) :
    y ∈ sortInsert le x s ↔ y = x ∨ y ∈ s := by
  induction s with
  | nil => simp [sortInsert]
  | cons z zs ih =>
    simp only [sortInsert]
    split
    · simp [or_assoc]
    · simp only [List.mem_cons, ih]
      tauto

theorem sortInsert_pairwise (le : α → α → Bool)
    (htot : ∀ a b, le a b = true ∨ le b a = true)
    (htr : ∀ a b c, le a b = true → le b c = true → le a c = true)
    (x : α) (s : List α) (hs : s.Pairwise (fun a b => le a b = true)) :
    (sortInsert le x s).Pairwise (fun a b => le a b = true) := by
  induction s with
  | nil => simp [sortInsert]
  | cons z zs ih =>
    rcases List.pairwise_cons.mp hs with ⟨hz, hzs⟩
    simp only [sortInsert]
    split
    · rename_i hxz
      refine List.pairwise_cons.mpr ⟨?_, hs⟩
      intro b hb
      rcases List.mem_cons.mp hb with rfl | hb
      · exact hxz
      · exact htr x z b hxz (hz b hb)
    · rename_i hxz
      refine List.pairwise_cons.mpr ⟨?_, ih hzs⟩
      intro b hb
      rcases (mem_sortInsert le x zs b).mp hb with rfl | hb
      · exact (htot b z).resolve_left (by simpa using hxz)
      · exact hz b hb

theorem sortList_pairwise (le : α → α → Bool)
    (htot : ∀ a b, le a b = true ∨ le b a = true)
    (htr : ∀ a b c, le a b = true → le b c = true → le a c = true)
    (l : List α) : (sortList le l).Pairwise (fun a b => le a b = true) := by
  induction l with
  | nil => simp [sortList]
  | cons x xs ih => exact sortInsert_pairwise le htot htr x (sortList le xs) ih

theorem getLast?_sortInsert (le : α → α → Bool)
    (htr : ∀ a b c, le a b = true → le b c = true → le a c = true)
    (x : α) (s : List α) (hs : s.Pairwise (fun a b => le a b = true)) :
    (sortInsert le x s).getLast? =
      some (match s.getLast? with
            | none => x
            | some b => if le x b then b else x) := by
  induction s with
  | nil => simp [sortInsert]
  | cons y ys ih =>
    rcases List.pairwise_cons.mp hs with ⟨hy, hys⟩
    simp only [sortInsert]
    split
    · rename_i hxy
      rw [List.getLast?_cons_cons]
      cases ys with
      | nil => simp [hxy]
      | cons z zs =>
        cases hb : (y :: z :: zs).getLast? with
        | none => simp at hb
        | some b =>
          have hb' : b = y ∨ b ∈ z :: zs := by
            rcases List.mem_cons.mp (List.mem_of_getLast?_eq_some hb) with h | h
            · exact Or.inl h
            · exact Or.inr h
          have hxb : le x b = true := by
            rcases hb' with rfl | hmem
            · exact hxy
            · exact htr x y b hxy (hy b hmem)
          simp [hxb]
    · rename_i hxy
      have hne := sortInsert_ne_nil le x ys
      cases hins : sortInsert le x ys with
      | nil => exact absurd hins hne
      | cons c cs =>
        rw [List.getLast?_cons_cons, ← hins, ih hys]
        cases ys with
        | nil =>
          simp only [List.getLast?_nil, List.getLast?_singleton]
          rw [if_neg hxy]
        | cons z zs =>
          rw [List.getLast?_cons_cons]

theorem getLast?_sortList (le : α → α → Bool)
    (htot : ∀ a b, le a b = true ∨ le b a = true)
    (htr : ∀ a b c, le a b = true → le b c = true → le a c = true)
    (l : List α) : (sortList le l).getLast? = lastMax le l := by
  induction l with
  | nil => rfl
  | cons x xs ih =>
    simp only [sortList]
    rw [getLast?_sortInsert le htr x (sortList le xs) (sortList_pairwise le htot htr xs), ih,
      lastMax_cons le htot htr x xs]

/-! ## Claim C1: engine-range matching -/

/-- C1: `engine_match` implements the caret-range semantics: `"*"` matches
everything; a pattern other than `"*"` that does not start with `^` never
matches; a caret pattern whose parsed tuple is a 4-tuple with suffix
exactly `insiders` never matches; any other caret pattern, against a host
version that parses, matches iff the majors are equal, the pattern minor is
at most the host minor, and it is not the case that the minors are equal
while the pattern patch is nonzero and greater than the host patch. -/
theorem engine_match_spec :
    (∀ e : String, engine_match "*" e = some true) ∧
    (∀ p e : String, p ≠ "*" → p.data.head? ≠ some '^' →
      engine_match p e ≠ some true) ∧
    (∀ (p e : String) (rest : List Char) (a b c : Int),
      p.data = '^' :: rest → version_serialL rest = some (a, b, c, some "insiders".data) →
      engine_match p e ≠ some true) ∧
    (∀ (p e : String) (rest : List Char) (a b c : Int) (s : Option (List Char))
      (va vb vc : Int) (vs : Option (List Char)),
      p.data = '^' :: rest → version_serialL rest = some (a, b, c, s) →
      s ≠ some "insiders".data → version_serialL e.data = some (va, vb, vc, vs) →
      (engine_match p e = some true ↔ (a = va ∧ b ≤ vb ∧ ¬(b = vb ∧ c ≠ 0 ∧ c > vc)))) := by
  refine ⟨?_, ?_, ?_, ?_⟩
  · intro e
    simp [engine_match]
  · intro p e hps hhead
    simp only [engine_match, if_neg hps]
    cases hd : p.data with
    | nil => simp [engine_matchL]
    | cons c rest =>
      rw [hd] at hhead
      simp only [List.head?_cons, ne_eq, Option.some.injEq] at hhead
      simp only [engine_matchL]
      rw [if_pos hhead]
      simp
  · intro p e rest a b c hd hser
    have hps : p ≠ "*" := by
      intro hh
      rw [hh] at hd
      have : ("*" : String).data = ['*'] := rfl
      rw [this] at hd
      cases hd
    simp only [engine_match, if_neg hps, hd, engine_matchL]
    have : ¬ ('^' ≠ '^') := by simp
    rw [if_neg this, hser]
    cases version_serialL e.data with
    | none => simp
    | some v =>
      obtain ⟨v0, v1, v2, vs⟩ := v
      simp only [engine_match_rr, if_pos rfl]
      simp
  · intro p e rest a b c s va vb vc vs hd hser hs hv
    have hps : p ≠ "*" := by
      intro hh
      rw [hh] at hd
      have : ("*" : String).data = ['*'] := rfl
      rw [this] at hd
      cases hd
    simp only [engine_match, if_neg hps, hd, engine_matchL]
    have hne : ¬ ('^' ≠ '^') := by simp
    rw [if_neg hne, hser, hv]
    simp only [engine_match_rr, if_neg hs, Option.some.injEq]
    by_cases h1 : a ≠ va
    · rw [if_pos h1]
      simp only [Bool.false_eq_true, false_iff]
      omega
    · rw [if_neg h1]
      by_cases h2 : b > vb
      · rw [if_pos h2]
        simp only [Bool.false_eq_true, false_iff]
        omega
      · rw [if_neg h2]
        by_cases h3 : b = vb ∧ c ≠ 0 ∧ c > vc
        · rw [if_pos h3]
          simp only [Bool.false_eq_true, false_iff]
          omega
        · rw [if_neg h3]
          constructor
          · intro _
            omega
          · intro _
            trivial

/-- Witness for C1 at concrete inputs. -/
theorem engine_match_spec_witness :
    engine_match "*" "1.60.0" = some true ∧
    engine_match "1.50.0" "1.60.0" ≠ some true ∧
    engine_match "^1.50.0-insiders" "1.60.0" ≠ some true ∧
    engine_match "^1.50.0" "1.60.3" = some true :=
  ⟨engine_match_spec.1 "1.60.0",
   engine_match_spec.2.1 "1.50.0" "1.60.0" (by decide) (by decide),
   engine_match_spec.2.2.1 "^1.50.0-insiders" "1.60.0" "1.50.0-insiders".data 1 50 0
     (by decide) (by decide),
   (engine_match_spec.2.2.2 "^1.50.0" "1.60.3" "1.50.0".data 1 50 0 none 1 60 3 none
     (by decide) (by decide) (by decide) (by decide)).mpr (by decide)⟩

/-! ## Claim C4: the download plan -/

/-- C4 (amended): within one closure pass, re-adding an identical
descriptor for an already-present filename is a no-op, and adding a
structurally different descriptor for a present filename is a fatal
`ConsistencyFault` (the failed `assert` fires before the assignment, so the
entry is never overwritten). -/
theorem plan_add_spec (dl : List (String × Download)) (vsix : String) (d d' : Download) :
    (planFind dl vsix = some d → plan_add dl vsix d = .ok dl) ∧
    (planFind dl vsix = some d' → d' ≠ d → plan_add dl vsix d = .error Err.consistency) := by
  constructor
  · intro h
    simp [plan_add, h]
  · intro h hne
    simp [plan_add, h, hne]

/-- Witness for C4's amended theorem at a concrete plan. -/
theorem plan_add_spec_witness :
    plan_add [("a.a-1.0.0.vsix", ⟨"1.0.0", some "*", "https://one", "t"⟩)] "a.a-1.0.0.vsix"
        ⟨"1.0.0", some "*", "https://one", "t"⟩ =
      .ok [("a.a-1.0.0.vsix", ⟨"1.0.0", some "*", "https://one", "t"⟩)] ∧
    plan_add [("a.a-1.0.0.vsix", ⟨"1.0.0", some "*", "https://one", "t"⟩)] "a.a-1.0.0.vsix"
        ⟨"1.0.0", some "*", "https://two", "t"⟩ =
      .error Err.consistency :=
  ⟨(plan_add_spec [("a.a-1.0.0.vsix", ⟨"1.0.0", some "*", "https://one", "t"⟩)]
      "a.a-1.0.0.vsix" ⟨"1.0.0", some "*", "https://one", "t"⟩
      ⟨"1.0.0", some "*", "https://one", "t"⟩).1 (by decide),
   (plan_add_spec [("a.a-1.0.0.vsix", ⟨"1.0.0", some "*", "https://one", "t"⟩)]
      "a.a-1.0.0.vsix" ⟨"1.0.0", some "*", "https://two", "t"⟩
      ⟨"1.0.0", some "*", "https://one", "t"⟩).2 (by decide) (by decide)⟩

/-! ## Claim C8: the domain of version parsing -/

/-- C8 counterexample: `"1.2.3-a.b"` has four dot-separated segments and
nevertheless parses (the split takes at most two dots, so the extra dot
lands inside the pre-release suffix), contradicting the claim that no
string with more than three dot-separated segments parses successfully. -/
theorem version_serial_four_segments_counterexample :
    version_serial "1.2.3-a.b" = some (1, 2, 3, some "a.b".data) ∧
    (splitOnChar '.' "1.2.3-a.b".data).length = 4 := by
  decide

/-! ## Claim C3: tie between a tagged and an untagged version -/

/-- C3 counterexample: with two surviving versions sharing the numeric
triple `1.2.3`, one untagged and one with a pre-release-style suffix, the
selector picks the tagged `1.2.3-beta`, not the untagged `1.2.3`: a
4-tuple sorts strictly after the 3-tuple, and `sorted(...)[-1]` takes the
greatest. -/
theorem version_select_untagged_counterexample :
    filter_version "1.50.0" "linux-x64" [c3_untagged, c3_tagged] = .ok [c3_untagged, c3_tagged] ∧
    select_version "1.50.0" "linux-x64" [c3_untagged, c3_tagged] = .ok c3_tagged ∧
    c3_tagged ≠ c3_untagged := by
  decide

/-- C3 (amended): whenever the surviving versions are exactly one untagged
and one pre-release-tagged version with the same numeric triple, in either
order, the selector picks the tagged one. -/
theorem version_select_tagged_wins
    (engine platform : String) (versions : List VersionRec) (u t : VersionRec)
    (a b c : Int) (s : List Char)
    (hu : version_serial u.version = some (a, b, c, none))
    (ht : version_serial t.version = some (a, b, c, some s))
    (hf : filter_version engine platform versions = .ok [u, t] ∨
          filter_version engine platform versions = .ok [t, u]) :
    select_version engine platform versions = .ok t := by
  have hlt : versionLt (a, b, c, none) (a, b, c, some s) = true := by
    simp [versionLt]
  have hnlt : versionLt (a, b, c, some s) (a, b, c, none) = false := by
    simp [versionLt]
  have hle : pairLe (u, (a, b, c, none)) (t, (a, b, c, some s)) = true := by
    simp only [pairLe, versionLe, hnlt, Bool.not_false]
  have hnle : pairLe (t, (a, b, c, some s)) (u, (a, b, c, none)) = false := by
    simp only [pairLe, versionLe, hlt, Bool.not_true]
  have hle' : pairLe (u, (a, b, c, none)) (t, (a, b, c, some s)) = true := hle
  have hnle' : ¬ (pairLe (t, (a, b, c, some s)) (u, (a, b, c, none)) = true) := by
    simp [hnle]
  rcases hf with h | h
  · simp only [select_version, h, keyedOf, hu, ht]
    simp only [sortList, sortInsert]
    rw [if_pos hle']
    simp only [List.getLast?_cons_cons, List.getLast?_singleton]
  · simp only [select_version, h, keyedOf, hu, ht]
    simp only [sortList, sortInsert]
    rw [if_neg hnle']
    simp only [List.getLast?_cons_cons, List.getLast?_singleton]

/-- Witness for the amended C3 at concrete records. -/
theorem version_select_tagged_wins_witness :
    select_version "1.50.0" "linux-x64" [c3_untagged, c3_tagged] = .ok c3_tagged :=
  version_select_tagged_wins "1.50.0" "linux-x64" [c3_untagged, c3_tagged]
    c3_untagged c3_tagged 1 2 3 "beta".data (by decide) (by decide) (Or.inl (by decide))

/-! ## Claim C7: artifact filename shape -/

/-- C7 counterexample: for the hard-coded override `vadimcn.vscode-lldb`,
the selected best version carries no target-platform tag, yet the filename
includes the requested platform tag (the override forces
`target_platform = platform`), contradicting the claim for every selected
version. -/
theorem filename_platform_tag_counterexample :
    select_version "1.50.0" "linux-x64" [c7_version] = .ok c7_version ∧
    c7_version.targetPlatform = none ∧
    (find_version "vadimcn.vscode-lldb" "1.50.0" [c7_version] "linux-x64" []).map Prod.fst =
      .ok "vadimcn.vscode-lldb-linux-x64-1.2.3.vsix" ∧
    "vadimcn.vscode-lldb-linux-x64-1.2.3.vsix" ≠
      "vadimcn.vscode-lldb" ++ "-" ++ c7_version.version ++ ".vsix" := by
  decide

/-- C7 (amended): for every extension other than the hard-coded override
`vadimcn.vscode-lldb`, the artifact filename is
`name-platformTag-version.vsix` exactly when the selected version carries
an explicit target-platform tag and `name-version.vsix` otherwise, even
when the caller requested a specific platform. -/
theorem filename_platform_tag_spec
    (name engine : String) (versions : List VersionRec) (platform : String)
    (dl dl' : List (String × Download)) (vsix : String)
    (hname : name ≠ "vadimcn.vscode-lldb")
    (h : find_version name engine versions platform dl = .ok (vsix, dl')) :
    ∃ v, select_version engine platform versions = .ok v ∧
      ((∃ tp, v.targetPlatform = some tp ∧
          vsix = name ++ "-" ++ tp ++ "-" ++ v.version ++ ".vsix") ∨
       (v.targetPlatform = none ∧ vsix = name ++ "-" ++ v.version ++ ".vsix")) := by
  cases hsel : select_version engine platform versions with
  | error e =>
    rw [find_version, hsel] at h
    cases h
  | ok v =>
    rw [find_version, hsel] at h
    simp only [if_neg hname] at h
    refine ⟨v, rfl, ?_⟩
    cases htp : v.targetPlatform with
    | none =>
      rw [htp] at h
      simp only at h
      right
      refine ⟨rfl, ?_⟩
      cases hpa : plan_add dl (name ++ "-" ++ v.version ++ ".vsix")
          ⟨v.version, get_property v "Microsoft.VisualStudio.Code.Engine",
            v.assetUri ++ "/Microsoft.VisualStudio.Services.VSIXPackage", v.lastUpdated⟩ with
      | error e => rw [hpa] at h; cases h
      | ok d2 =>
        rw [hpa] at h
        rw [Except.ok.injEq, Prod.mk.injEq] at h
        exact h.1.symm
    | some tp =>
      rw [htp] at h
      simp only at h
      left
      refine ⟨tp, rfl, ?_⟩
      cases hpa : plan_add dl (name ++ "-" ++ tp ++ "-" ++ v.version ++ ".vsix")
          ⟨v.version, get_property v "Microsoft.VisualStudio.Code.Engine",
            v.assetUri ++ "/Microsoft.VisualStudio.Services.VSIXPackage", v.lastUpdated⟩ with
      | error e => rw [hpa] at h; cases h
      | ok d2 =>
        rw [hpa] at h
        rw [Except.ok.injEq, Prod.mk.injEq] at h
        exact h.1.symm

/-- Witness for the amended C7 at a concrete non-override extension. -/
theorem filename_platform_tag_spec_witness :
    ∃ v, select_version "1.50.0" "linux-x64" [c7_version] = .ok v ∧
      ((∃ tp, v.targetPlatform = some tp ∧
          "pub.ext-1.2.3.vsix" = "pub.ext" ++ "-" ++ tp ++ "-" ++ v.version ++ ".vsix") ∨
       (v.targetPlatform = none ∧
          "pub.ext-1.2.3.vsix" = "pub.ext" ++ "-" ++ v.version ++ ".vsix")) :=
  filename_platform_tag_spec "pub.ext" "1.50.0" [c7_version] "linux-x64" []
    [("pub.ext-1.2.3.vsix",
      ⟨"1.2.3", some "*", "https://lldb/Microsoft.VisualStudio.Services.VSIXPackage",
        "2024-01-01T00:00:00Z"⟩)]
    "pub.ext-1.2.3.vsix" (by decide) (by decide)

/-! ## Claims C5 and C6: the pack-closure loop -/

/-- C6: on a pack that lists itself as a member, the closure loop never
terminates — `all_extensions` stores artifact filenames (`*.vsix`) while
the manifest yields bare identifiers, so the frontier subtraction removes
nothing and the same identifier is re-queried forever. -/
theorem pack_closure_nontermination :
    ∀ fuel, (Extension_run c6_query c6_manifest "1.50.0" ["a.a"] fuel).1 = .ok none := by
  have hst : Extension_get_downloads c6_query "1.50.0" ["a.a"] [] = .ok c6_state := by decide
  have hloop : ∀ n,
      (Extension_run_loop c6_query c6_manifest "1.50.0" n c6_state).1 = .ok none := by
    intro n
    induction n with
    | zero => rfl
    | succ k ih =>
      have hstep : Extension_run_loop c6_query c6_manifest "1.50.0" (k + 1) c6_state =
          ((Extension_run_loop c6_query c6_manifest "1.50.0" k c6_state).1,
            ["a.a"] :: (Extension_run_loop c6_query c6_manifest "1.50.0" k c6_state).2) := rfl
      rw [hstep]
      exact ih
  intro fuel
  simp only [Extension_run, hst]
  exact hloop fuel

/-- C5: with pack `a.a ⊇ {b.b, c.c}` and pack `b.b ⊇ {c.c}`, the identifier
`c.c` is sent to the catalog in two different passes — the "seen" set holds
filenames, not identifiers, so the frontier subtraction never removes an
already-queried identifier. -/
theorem pack_closure_requery :
    (Extension_run c5_query c5_manifest "1.50.0" ["a.a"] 10).1 =
      .ok (some ⟨["a.a-1.0.0.vsix", "b.b-1.0.0.vsix", "c.c-1.0.0.vsix"],
        [("c.c-1.0.0.vsix",
          ⟨"1.0.0", some "*", "https://c/Microsoft.VisualStudio.Services.VSIXPackage",
            "2024-01-01T00:00:00Z"⟩)], []⟩) ∧
    (Extension_run c5_query c5_manifest "1.50.0" ["a.a"] 10).2 =
      [["a.a"], ["b.b", "c.c"], ["c.c"]] ∧
    ((Extension_run c5_query c5_manifest "1.50.0" ["a.a"] 10).2.filter
        (fun q => "c.c" ∈ q)).length = 2 := by
  decide

/-- C4 counterexample: `self.downloads` is reset at the start of every
pass, so a structurally different descriptor derived for an
already-resolved filename on a later pass is accepted without a
`ConsistencyFault`: the first pass stores `c4_first` for
`a.a-1.0.0.vsix`, the third pass stores the different `c4_third`, and the
run completes successfully. -/
theorem plan_reset_across_passes_counterexample :
    (Extension_get_downloads c4_query "1.50.0" ["a.a"] []).map
        (fun st => planFind st.downloads "a.a-1.0.0.vsix") = .ok (some c4_first) ∧
    (Extension_run c4_query c4_manifest "1.50.0" ["a.a"] 10).1.map
        (fun o => o.map (fun st => planFind st.downloads "a.a-1.0.0.vsix")) =
      .ok (some (some c4_third)) ∧
    c4_first ≠ c4_third := by
  decide

/-! ## Claim C2: the selection pipeline -/

/-- When `filter_version` completes without a fatal fault, its result is the
boolean filter `keepB` applied to the version list. -/
theorem filter_version_ok (engine platform : String) :
    ∀ (l r : List VersionRec), filter_version engine platform l = .ok r →
      r = l.filter (keepB engine platform)
  | [], r, h => by
    simp only [filter_version, Except.ok.injEq] at h
    simp [← h]
  | v :: rest, r, h => by
    rw [filter_version] at h
    by_cases hfl : v.flags ≠ "validated" ∧ v.flags ≠ "none"
    · rw [if_pos hfl] at h
      cases h
    · rw [if_neg hfl] at h
      by_cases hplat : v.targetPlatform.getD platform ≠ platform
      · rw [if_pos hplat] at h
        have hkeep : keepB engine platform v = false := by
          simp only [keepB, Bool.and_eq_false_iff, beq_iff_eq]
          left; left
          simpa using hplat
        rw [List.filter_cons_of_neg (by simp [hkeep])]
        exact filter_version_ok engine platform rest r h
      · rw [if_neg hplat] at h
        rw [not_not] at hplat
        by_cases hpre : get_property v "Microsoft.VisualStudio.Code.PreRelease" = some "true"
        · rw [if_pos hpre] at h
          have hkeep : keepB engine platform v = false := by
            simp [keepB, hpre]
          rw [List.filter_cons_of_neg (by simp [hkeep])]
          exact filter_version_ok engine platform rest r h
        · rw [if_neg hpre] at h
          split at h
          · rename_i hgp
            have hkeep : keepB engine platform v = false := by
              simp [keepB, hgp]
            rw [List.filter_cons_of_neg (by simp [hkeep])]
            exact filter_version_ok engine platform rest r h
          · rename_i ev hgp
            by_cases hev : ev = ""
            · rw [if_pos hev] at h
              have hkeep : keepB engine platform v = false := by
                simp [keepB, hgp, hev]
              rw [List.filter_cons_of_neg (by simp [hkeep])]
              exact filter_version_ok engine platform rest r h
            · rw [if_neg hev] at h
              split at h
              · cases h
              · rename_i hem
                split at h
                · rename_i r2 hrec
                  rw [Except.ok.injEq] at h
                  have hkeep : keepB engine platform v = true := by
                    simp [keepB, hgp, hplat, hpre, hev, hem]
                  rw [List.filter_cons_of_pos (by simp [hkeep])]
                  rw [← h, filter_version_ok engine platform rest r2 hrec]
                · rename_i e hrec
                  cases h
              · rename_i hem
                have hkeep : keepB engine platform v = false := by
                  simp [keepB, hgp, hem]
                rw [List.filter_cons_of_neg (by simp [hkeep])]
                exact filter_version_ok engine platform rest r h

/-- `keepB` unfolded into the three conditions of the claim. -/
theorem keepB_iff (engine platform : String) (v : VersionRec) :
    keepB engine platform v = true ↔
      (v.targetPlatform.getD platform = platform ∧
       get_property v "Microsoft.VisualStudio.Code.PreRelease" ≠ some "true" ∧
       ∃ ev, get_property v "Microsoft.VisualStudio.Code.Engine" = some ev ∧ ev ≠ "" ∧
         engine_match ev engine = some true) := by
  simp only [keepB, Bool.and_eq_true, beq_iff_eq]
  constructor
  · rintro ⟨⟨h1, h2⟩, h3⟩
    refine ⟨h1, ?_, ?_⟩
    · simpa using h2
    · cases hgp : get_property v "Microsoft.VisualStudio.Code.Engine" with
      | none => rw [hgp] at h3; cases h3
      | some ev =>
        rw [hgp] at h3
        have h3' : (ev ≠ "" && (engine_match ev engine == some true)) = true := h3
        simp only [Bool.and_eq_true, beq_iff_eq, ne_eq, decide_eq_true_eq] at h3'
        exact ⟨ev, rfl, by simpa using h3'.1, h3'.2⟩
  · rintro ⟨h1, h2, ev, hgp, hev, hem⟩
    refine ⟨⟨h1, by simpa using h2⟩, ?_⟩
    rw [hgp]
    have : (ev ≠ "" && (engine_match ev engine == some true)) = true := by
      simp [hev, hem]
    exact this

/-- Every keyed pair comes from the survivor list with its parsed key. -/
theorem keyedOf_mem : ∀ (l : List VersionRec) (k : List (VersionRec × VersionT)),
    keyedOf l = .ok k → ∀ p ∈ k, p.1 ∈ l ∧ version_serial p.1.version = some p.2
  | [], k, h => by
    simp only [keyedOf, Except.ok.injEq] at h
    simp [← h]
  | v :: rest, k, h => by
    rw [keyedOf] at h
    split at h
    · rename_i kv hs
      split at h
      · rename_i k2 hrec
        rw [Except.ok.injEq] at h
        intro p hp
        rw [← h] at hp
        rcases List.mem_cons.mp hp with rfl | hp
        · exact ⟨List.mem_cons_self _ _, hs⟩
        · have := keyedOf_mem rest k2 hrec p hp
          exact ⟨List.mem_cons_of_mem _ this.1, this.2⟩
      · cases h
    · cases h

/-- Every survivor appears keyed in the keyed list. -/
theorem keyedOf_mem_of : ∀ (l : List VersionRec) (k : List (VersionRec × VersionT)),
    keyedOf l = .ok k → ∀ w ∈ l, ∃ kw, version_serial w.version = some kw ∧ (w, kw) ∈ k
  | [], _, _ => by
    intro w hw
    cases hw
  | v :: rest, k, h => by
    rw [keyedOf] at h
    split at h
    · rename_i kv hs
      split at h
      · rename_i k2 hrec
        rw [Except.ok.injEq] at h
        intro w hw
        rcases List.mem_cons.mp hw with rfl | hw
        · exact ⟨kv, hs, by rw [← h]; exact List.mem_cons_self _ _⟩
        · obtain ⟨kw, hkw, hmem⟩ := keyedOf_mem_of rest k2 hrec w hw
          exact ⟨kw, hkw, by rw [← h]; exact List.mem_cons_of_mem _ hmem⟩
      · cases h
    · cases h

/-- C2: when the filter completes without a fatal fault, (a) it keeps
exactly the versions whose platform tag is absent or equal to the requested
platform, that are not flagged pre-release, and that declare an engine
range matching the host engine; (b) with no survivor, selection (and the
whole `find_version`) fails with the no-compatible-version fault; (c) a
selected version is a survivor whose parsed version tuple is greatest among
all survivors under the §4.1 ordering. -/
theorem select_version_spec (engine platform : String) (versions l : List VersionRec)
    (hf : filter_version engine platform versions = .ok l) :
    (∀ v, v ∈ l ↔ v ∈ versions ∧ v.targetPlatform.getD platform = platform ∧
        get_property v "Microsoft.VisualStudio.Code.PreRelease" ≠ some "true" ∧
        ∃ ev, get_property v "Microsoft.VisualStudio.Code.Engine" = some ev ∧ ev ≠ "" ∧
          engine_match ev engine = some true) ∧
    (l = [] → select_version engine platform versions = .error Err.noCompatible ∧
      ∀ name dl, find_version name engine versions platform dl = .error Err.noCompatible) ∧
    (∀ v, select_version engine platform versions = .ok v →
      v ∈ l ∧ ∃ k, version_serial v.version = some k ∧
        ∀ w ∈ l, ∀ kw, version_serial w.version = some kw → versionLe kw k = true) := by
  refine ⟨?_, ?_, ?_⟩
  · intro v
    rw [filter_version_ok engine platform versions l hf, List.mem_filter, keepB_iff]
  · intro hl
    subst hl
    have hsel : select_version engine platform versions = .error Err.noCompatible := by
      rw [select_version, hf]
      rfl
    refine ⟨hsel, ?_⟩
    intro name dl
    rw [find_version, hsel]
  · intro v hv
    rw [select_version, hf] at hv
    replace hv : (match keyedOf l with
        | Except.error e => (Except.error e : Except Err VersionRec)
        | Except.ok keyed =>
          match (sortList pairLe keyed).getLast? with
          | some p => Except.ok p.1
          | none => Except.error Err.noCompatible) = Except.ok v := hv
    cases hk : keyedOf l with
    | error e => rw [hk] at hv; cases hv
    | ok keyed =>
      rw [hk] at hv
      replace hv : (match (sortList pairLe keyed).getLast? with
          | some p => (Except.ok p.1 : Except Err VersionRec)
          | none => Except.error Err.noCompatible) = Except.ok v := hv
      rw [getLast?_sortList pairLe pairLe_total pairLe_trans keyed] at hv
      cases hlm : lastMax pairLe keyed with
      | none => rw [hlm] at hv; cases hv
      | some p =>
        rw [hlm] at hv
        replace hv : Except.ok p.1 = Except.ok v := hv
        rw [Except.ok.injEq] at hv
        have hpk := keyedOf_mem l keyed hk p (lastMax_mem pairLe keyed p hlm)
        refine ⟨hv ▸ hpk.1, p.2, hv ▸ hpk.2, ?_⟩
        intro w hw kw hkw
        obtain ⟨kw2, hkw2, hmem⟩ := keyedOf_mem_of l keyed hk w hw
        have hkweq : kw2 = kw := by
          rw [hkw] at hkw2
          exact (Option.some.injEq _ _ ▸ hkw2).symm
        subst hkweq
        exact lastMax_isUB pairLe pairLe_total pairLe_trans keyed p hlm (w, kw2) hmem

theorem select_version_spec_witness :
    select_version "1.50.0" "linux-x64" [c2_pre, c2_incompat] = .error Err.noCompatible :=
  ((select_version_spec "1.50.0" "linux-x64" [c2_pre, c2_incompat] [] (by decide)).2.1 rfl).1

/-- The success condition of `version_core` in terms of its three parts. -/
theorem version_core_isSome (v0 v1 v2 : List Char) :
    (version_core v0 v1 v2).isSome = true ↔
      ((pyIntL v0).isSome = true ∧ (pyIntL v1).isSome = true ∧
       (if v2.contains '-' then
          match splitOnChar '-' v2 with
          | r0 :: _ :: _ => (pyIntL r0).isSome = true
          | _ => False
        else (pyIntL v2).isSome = true)) := by
  by_cases hc : v2.contains '-'
  · rw [version_core, if_pos hc]
    cases hsp : splitOnChar '-' v2 with
    | nil =>
      simp only [hc, hsp]
      simp
    | cons r0 rr =>
      cases rr with
      | nil =>
        simp only [hc, hsp]
        simp
      | cons r1 rrest =>
        simp only [hsp, if_pos hc]
        cases h0 : pyIntL v0 <;> cases h1 : pyIntL v1 <;> cases h2 : pyIntL r0 <;>
          simp [h0, h1, h2]
  · rw [version_core, if_neg hc]
    simp only [if_neg hc]
    cases h0 : pyIntL v0 <;> cases h1 : pyIntL v1 <;> cases h2 : pyIntL v2 <;>
      simp [h0, h1, h2]

theorem version_serial_domain_spec (s : String) :
    (version_serial s).isSome = true ↔
      ∃ p0 p1 rest, splitOnChar '.' s.data = p0 :: p1 :: rest ∧ rest ≠ [] ∧
        (pyIntL p0).isSome = true ∧ (pyIntL p1).isSome = true ∧
        (if (joinSep '.' rest).contains '-' then
           match splitOnChar '-' (joinSep '.' rest) with
           | r0 :: _ :: _ => (pyIntL r0).isSome = true
           | _ => False
         else (pyIntL (joinSep '.' rest)).isSome = true) := by
  rw [version_serial, version_serialL]
  cases hp : splitOnChar '.' s.data with
  | nil =>
    constructor
    · intro h
      exact absurd h Bool.false_ne_true
    · rintro ⟨p0, p1, rest, heq, -⟩
      cases heq
  | cons p0 t1 =>
    cases t1 with
    | nil =>
      constructor
      · intro h
        exact absurd h Bool.false_ne_true
      · rintro ⟨p0', p1', rest, heq, -⟩
        cases heq
    | cons p1 t2 =>
      cases t2 with
      | nil =>
        constructor
        · intro h
          exact absurd h Bool.false_ne_true
        · rintro ⟨p0', p1', rest, heq, hne, -⟩
          rw [List.cons.injEq, List.cons.injEq] at heq
          exact (hne heq.2.2.symm).elim
      | cons r2 t3 =>
        cases t3 with
        | nil =>
          constructor
          · intro h
            exact ⟨p0, p1, [r2], rfl, by simp, (version_core_isSome p0 p1 r2).mp h⟩
          · rintro ⟨p0', p1', rest, heq, hne, h0, h1, hcond⟩
            rw [List.cons.injEq, List.cons.injEq] at heq
            obtain ⟨rfl, rfl, hr⟩ := heq
            subst hr
            exact (version_core_isSome p0 p1 r2).mpr ⟨h0, h1, hcond⟩
        | cons r3 t4 =>
          have hlen : ¬ ((p0 :: p1 :: r2 :: r3 :: t4 : List (List Char)).length ≤ 3) := by
            simp
          rw [version_partsOf, if_neg hlen]
          constructor
          · intro h
            exact ⟨p0, p1, r2 :: r3 :: t4, rfl, by simp,
              (version_core_isSome p0 p1 (joinSep '.' (r2 :: r3 :: t4))).mp h⟩
          · rintro ⟨p0', p1', rest, heq, hne, h0, h1, hcond⟩
            rw [List.cons.injEq, List.cons.injEq] at heq
            obtain ⟨rfl, rfl, hr⟩ := heq
            subst hr
            exact (version_core_isSome p0 p1 (joinSep '.' (r2 :: r3 :: t4))).mpr ⟨h0, h1, hcond⟩

/-! ## Claim C9: the redirect-based engine version lookup -/

theorem redirectMatchAt_cons_ne (c : Char) (l : List Char) (h : c ≠ '/') :
    redirectMatchAt (c :: l) = none := by
  simp [redirectMatchAt, h]

theorem redirectSearch_skip : ∀ (pre rest : List Char),
    (∀ suf, suf ≠ [] → suf.IsSuffix pre → redirectMatchAt (suf ++ rest) = none) →
    redirectSearch (pre ++ rest) = redirectSearch rest
  | [], rest, _ => rfl
  | c :: pre, rest, h => by
    rw [List.cons_append, redirectSearch]
    have hm : redirectMatchAt ((c :: pre) ++ rest) = none :=
      h (c :: pre) (by simp) (List.suffix_refl _)
    rw [List.cons_append] at hm
    rw [hm]
    exact redirectSearch_skip pre rest
      (fun suf hne hsuf => h suf hne (hsuf.trans (List.suffix_cons c pre)))

theorem suffix_append_cases {α : Type _} :
    ∀ (l1 l2 suf : List α), suf.IsSuffix (l1 ++ l2) →
      suf.IsSuffix l2 ∨ ∃ s1, s1.IsSuffix l1 ∧ s1 ≠ [] ∧ suf = s1 ++ l2
  | [], _, _, h => Or.inl h
  | a :: l1, l2, suf, h => by
    rcases List.suffix_cons_iff.mp h with h1 | h2
    · right
      exact ⟨a :: l1, List.suffix_refl _, by simp, by simpa using h1⟩
    · rcases suffix_append_cases l1 l2 suf h2 with h3 | ⟨s1, hs1, hne, rfl⟩
      · exact Or.inl h3
      · exact Or.inr ⟨s1, hs1.trans (List.suffix_cons a l1), hne, rfl⟩

/-- The anchored match succeeds at the channel slash of a well-formed
redirect target and extracts the three groups. -/
theorem redirectBody_complete
    (channel commit version zrest : List Char)
    (hch : channel ≠ []) (hchw : channel.all isWordCharB = true)
    (hcm : commit.length = 40) (hcmh : commit.all isHexB = true)
    (hv : version ≠ []) (hvd : version.all isDigitDotB = true) :
    redirectBody (channel ++ '/' ::
        (commit ++ ("/VSCode-win32-x64-".data ++ (version ++ '.' :: 'z' :: 'i' :: 'p' :: zrest))))
      = some (channel, commit, version) := by
  have hver : redirectVer (version ++ '.' :: 'z' :: 'i' :: 'p' :: zrest) = some version := by
    rw [redirectVer]
    have hrun : (version ++ '.' :: 'z' :: 'i' :: 'p' :: zrest).takeWhile isDigitDotB
        = version ++ ['.'] := by
      rw [List.takeWhile_append_of_pos (fun a ha => List.all_eq_true.mp hvd a ha)]
      rw [List.takeWhile_cons_of_pos (by decide)]
      rw [List.takeWhile_cons_of_neg (by decide)]
    rw [hrun]
    have hdrop2 : (version ++ '.' :: 'z' :: 'i' :: 'p' :: zrest).drop (version ++ ['.']).length
        = 'z' :: 'i' :: 'p' :: zrest := by
      have hre : version ++ '.' :: 'z' :: 'i' :: 'p' :: zrest
          = (version ++ ['.']) ++ 'z' :: 'i' :: 'p' :: zrest := by
        simp
      rw [hre]
      exact List.drop_left _ _
    rw [hdrop2]
    have hrev : (version ++ ['.']).reverse = '.' :: version.reverse := by simp
    rw [hrev, verBacktrack]
    have hdz : dotZipAt ('z' :: 'i' :: 'p' :: zrest) = false := by
      cases zrest <;> rfl
    rw [if_neg (by simp [hdz])]
    cases hrv : version.reverse with
    | nil =>
      exact absurd (by simpa using congrArg List.reverse hrv) hv
    | cons c rr =>
      rw [verBacktrack, if_pos (by rfl)]
      rw [← hrv, List.reverse_reverse]
  have htail : redirectTail (commit ++ ("/VSCode-win32-x64-".data
      ++ (version ++ '.' :: 'z' :: 'i' :: 'p' :: zrest))) = some (commit, version) := by
    rw [redirectTail]
    have htake : (commit ++ ("/VSCode-win32-x64-".data
        ++ (version ++ '.' :: 'z' :: 'i' :: 'p' :: zrest))).take 40 = commit :=
      List.take_left' hcm
    have hdrop : (commit ++ ("/VSCode-win32-x64-".data
        ++ (version ++ '.' :: 'z' :: 'i' :: 'p' :: zrest))).drop 40
        = "/VSCode-win32-x64-".data ++ (version ++ '.' :: 'z' :: 'i' :: 'p' :: zrest) :=
      List.drop_left' hcm
    rw [htake, hdrop]
    rw [if_pos ⟨hcm, hcmh⟩]
    rw [List.take_left, if_pos rfl]
    rw [List.drop_left, hver]
  rw [redirectBody]
  have hallw : ∀ a ∈ channel, isWordCharB a = true := by
    intro a ha
    exact List.all_eq_true.mp hchw a ha
  have htw : (channel ++ '/' ::
      (commit ++ ("/VSCode-win32-x64-".data
        ++ (version ++ '.' :: 'z' :: 'i' :: 'p' :: zrest)))).takeWhile isWordCharB
      = channel := by
    rw [List.takeWhile_append_of_pos hallw]
    rw [List.takeWhile_cons_of_neg (by decide)]
    simp
  rw [htw, if_neg hch, List.drop_left]
  exact (show (match redirectTail (commit ++ ("/VSCode-win32-x64-".data
      ++ (version ++ '.' :: 'z' :: 'i' :: 'p' :: zrest))) with
      | some (hex, ver) => some (channel, hex, ver)
      | none => none) = some (channel, commit, version) from by rw [htail])

/-- The anchored body fails when the character after the `\w+` run is not
`/`. -/
theorem redirectBody_head_ne (rest : List Char)
    (hne : rest.takeWhile isWordCharB ≠ [])
    (c0 : Char) (tail : List Char)
    (hd : rest.drop (rest.takeWhile isWordCharB).length = c0 :: tail)
    (hc0 : c0 ≠ '/') : redirectBody rest = none := by
  rw [redirectBody, if_neg hne, hd]
  exact (show (if c0 = '/' then
      (match redirectTail tail with
       | some (hex, ver) => some (rest.takeWhile isWordCharB, hex, ver)
       | none => none)
    else none) = none from by rw [if_neg hc0])

/-- C9: the redirect lookup fails on a non-302 status, on a target that
does not match the pattern, and on an extracted channel different from the
requested one; and on a well-formed redirect target
`https://host/{channel}/{40-hex-commit}/VSCode-win32-x64-{version}.zip`
(host without slashes and with at least one non-word character, channel a
nonempty word, version nonempty digits-and-dots) it returns exactly that
version and commit. -/
theorem vscode_latest_version_spec :
    (∀ (channel location : String) (status : Nat), status ≠ 302 →
      vscode_latest_version channel status location = none) ∧
    (∀ (channel location : String) (status : Nat), redirectSearch location.data = none →
      vscode_latest_version channel status location = none) ∧
    (∀ (channel location : String) (status : Nat) (ch cm vr : List Char),
      redirectSearch location.data = some (ch, cm, vr) → ch ≠ channel.data →
      vscode_latest_version channel status location = none) ∧
    (∀ (host channel commit version : String),
      '/' ∉ host.data → (∃ c ∈ host.data, ¬ isWordCharB c = true) →
      channel.data ≠ [] → channel.data.all isWordCharB = true →
      commit.data.length = 40 → commit.data.all isHexB = true →
      version.data ≠ [] → version.data.all isDigitDotB = true →
      vscode_latest_version channel 302
        ("https://" ++ host ++ "/" ++ channel ++ "/" ++ commit ++ "/VSCode-win32-x64-"
          ++ version ++ ".zip") = some (version, commit)) := by
  refine ⟨?_, ?_, ?_, ?_⟩
  · intro channel location status hst
    rw [vscode_latest_version, if_pos hst]
  · intro channel location status hsearch
    rw [vscode_latest_version]
    by_cases hst : status ≠ 302
    · rw [if_pos hst]
    · rw [if_neg hst, hsearch]
  · intro channel location status ch cm vr hsearch hch
    rw [vscode_latest_version]
    by_cases hst : status ≠ 302
    · rw [if_pos hst]
    · rw [if_neg hst, hsearch]
      exact (show (if ch ≠ channel.data then none
          else some (String.mk vr, String.mk cm)) = none from by rw [if_pos hch])
  · intro host channel commit version hslash hnonword hch hchw hcm hcmh hv hvd
    have hdata : ("https://" ++ host ++ "/" ++ channel ++ "/" ++ commit
        ++ "/VSCode-win32-x64-" ++ version ++ ".zip").data
        = ("https://".data ++ host.data) ++ ('/' :: (channel.data ++ ('/' :: (commit.data
            ++ ("/VSCode-win32-x64-".data ++ (version.data ++ '.' :: 'z' :: 'i' :: 'p' :: []))))))
        := by
      simp only [String.data_append]
      simp [List.append_assoc, List.cons_append, List.singleton_append]
    have hmatch : redirectMatchAt ('/' :: (channel.data ++ ('/' :: (commit.data
        ++ ("/VSCode-win32-x64-".data ++ (version.data ++ '.' :: 'z' :: 'i' :: 'p' :: []))))))
        = some (channel.data, commit.data, version.data) := by
      rw [redirectMatchAt, if_pos rfl]
      exact redirectBody_complete channel.data commit.data version.data [] hch hchw hcm hcmh
        hv hvd
    have hnomatch : ∀ suf, suf ≠ [] → suf.IsSuffix ("https://".data ++ host.data) →
        redirectMatchAt (suf ++ ('/' :: (channel.data ++ ('/' :: (commit.data
          ++ ("/VSCode-win32-x64-".data
            ++ (version.data ++ '.' :: 'z' :: 'i' :: 'p' :: []))))))) = none := by
      intro suf hne hsuf
      set rest := '/' :: (channel.data ++ ('/' :: (commit.data
        ++ ("/VSCode-win32-x64-".data ++ (version.data ++ '.' :: 'z' :: 'i' :: 'p' :: [])))))
        with hrest
      rcases suffix_append_cases "https://".data host.data suf hsuf with hH | ⟨s1, hs1, hs1ne, rfl⟩
      · cases suf with
        | nil => exact absurd rfl hne
        | cons c t =>
          have hc : c ∈ host.data := hH.subset (List.mem_cons_self c t)
          rw [List.cons_append]
          exact redirectMatchAt_cons_ne c _ (fun he => hslash (he ▸ hc))
      · have hs1mem : s1 ∈ ("https://".data).tails := (List.mem_tails _ _).mpr hs1
        have htails : ("https://".data).tails =
            [['h', 't', 't', 'p', 's', ':', '/', '/'], ['t', 't', 'p', 's', ':', '/', '/'],
             ['t', 'p', 's', ':', '/', '/'], ['p', 's', ':', '/', '/'], ['s', ':', '/', '/'],
             [':', '/', '/'], ['/', '/'], ['/'], []] := by decide
        rw [htails] at hs1mem
        simp only [List.mem_cons, List.not_mem_nil, or_false] at hs1mem
        have hbody : redirectBody (host.data ++ rest) = none := by
          have hdne : host.data.dropWhile isWordCharB ≠ [] := by
            rcases hnonword with ⟨c0, hc0mem, hc0⟩
            intro hnil
            exact hc0 (List.dropWhile_eq_nil_iff.mp hnil c0 hc0mem)
          cases hhd : host.data.dropWhile isWordCharB with
          | nil => exact absurd hhd hdne
          | cons c0 hr =>
            have hc0f : isWordCharB c0 = false := by
              have hh := List.head_dropWhile_not isWordCharB host.data
                (by rw [hhd]; simp)
              rwa [show (host.data.dropWhile isWordCharB).head (by rw [hhd]; simp) = c0
                from by simp [hhd]] at hh
            have hc0mem : c0 ∈ host.data :=
              (List.dropWhile_sublist isWordCharB).subset (hhd ▸ List.mem_cons_self c0 hr)
            have hc0ne : c0 ≠ '/' := fun he => hslash (he ▸ hc0mem)
            obtain ⟨hw, hhw⟩ : ∃ hw, host.data.takeWhile isWordCharB = hw := ⟨_, rfl⟩
            have hsplit : host.data = hw ++ c0 :: hr := by
              conv_lhs => rw [← List.takeWhile_append_dropWhile isWordCharB host.data]
              rw [hhw, hhd]
            have htw2 : (host.data ++ rest).takeWhile isWordCharB = hw := by
              rw [hsplit, List.append_assoc, List.cons_append]
              rw [List.takeWhile_append_of_pos
                (fun a ha => List.mem_takeWhile_imp (hhw ▸ ha))]
              rw [List.takeWhile_cons_of_neg (by simp [hc0f])]
              simp
            by_cases hwnil : hw = []
            · rw [redirectBody, htw2, if_pos hwnil]
            · have hdrop3 : (host.data ++ rest).drop
                  ((host.data ++ rest).takeWhile isWordCharB).length = c0 :: (hr ++ rest) := by
                rw [htw2, hsplit, List.append_assoc, List.cons_append]
                have : hw.length = hw.length := rfl
                rw [List.drop_left]
              exact redirectBody_head_ne (host.data ++ rest) (by rw [htw2]; exact hwnil)
                c0 (hr ++ rest) hdrop3 hc0ne
        rcases hs1mem with rfl | rfl | rfl | rfl | rfl | rfl | rfl | rfl | rfl
        · simp only [List.cons_append]
          exact redirectMatchAt_cons_ne _ _ (by decide)
        · simp only [List.cons_append]
          exact redirectMatchAt_cons_ne _ _ (by decide)
        · simp only [List.cons_append]
          exact redirectMatchAt_cons_ne _ _ (by decide)
        · simp only [List.cons_append]
          exact redirectMatchAt_cons_ne _ _ (by decide)
        · simp only [List.cons_append]
          exact redirectMatchAt_cons_ne _ _ (by decide)
        · simp only [List.cons_append]
          exact redirectMatchAt_cons_ne _ _ (by decide)
        · simp only [List.cons_append, List.nil_append]
          rw [redirectMatchAt, if_pos rfl]
          rw [redirectBody]
          rw [List.takeWhile_cons_of_neg (by decide)]
          rw [if_pos rfl]
        · simp only [List.cons_append, List.nil_append]
          rw [redirectMatchAt, if_pos rfl]
          exact hbody
        · exact absurd rfl hs1ne
    have hsearch : redirectSearch ("https://" ++ host ++ "/" ++ channel ++ "/" ++ commit
        ++ "/VSCode-win32-x64-" ++ version ++ ".zip").data
        = some (channel.data, commit.data, version.data) := by
      rw [hdata, redirectSearch_skip _ _ hnomatch, redirectSearch, hmatch]
    rw [vscode_latest_version, if_neg (by simp), hsearch]
    exact (show (if channel.data ≠ channel.data then none
        else some (String.mk version.data, String.mk commit.data))
        = some (version, commit) from by rw [if_neg (by simp)])

/-- Witness for C9 at concrete inputs. -/
theorem vscode_latest_version_spec_witness :
    vscode_latest_version "stable" 302
        ("https://" ++ "code.visualstudio.com" ++ "/" ++ "stable" ++ "/"
          ++ "aaaaaaaaaaaaaaaaaaaaaaaaaaaaaaaaaaaaaaaa" ++ "/VSCode-win32-x64-" ++ "1.85.0"
          ++ ".zip")
      = some ("1.85.0", "aaaaaaaaaaaaaaaaaaaaaaaaaaaaaaaaaaaaaaaa") ∧
    vscode_latest_version "stable" 404 "whatever" = none :=
  ⟨vscode_latest_version_spec.2.2.2 "code.visualstudio.com" "stable"
      "aaaaaaaaaaaaaaaaaaaaaaaaaaaaaaaaaaaaaaaa" "1.85.0"
      (by decide) ⟨'.', by decide, by decide⟩ (by decide) (by decide) (by decide) (by decide)
      (by decide) (by decide),
   vscode_latest_version_spec.1 "stable" "whatever" 404 (by decide)⟩

/-! ## Claim C10: platform-agnostic resolution is platform-independent -/

theorem lmStep_none_eq (q p : VersionRec × VersionT)
    (h : lmStep pairLe none q = some p) : p = q := by
  simp only [lmStep, Option.some.injEq] at h
  exact h.symm

theorem lmStep_some_cases (b q p : VersionRec × VersionT)
    (h : lmStep pairLe (some b) q = some p) :
    (p = q ∧ pairLe b q = true) ∨ (p = b ∧ pairLe b q = false) := by
  simp only [lmStep] at h
  by_cases hbq : pairLe b q = true
  · rw [if_pos hbq, Option.some.injEq] at h
    exact Or.inl ⟨h.symm, hbq⟩
  · rw [if_neg hbq, Option.some.injEq] at h
    exact Or.inr ⟨h.symm, by simpa using hbq⟩

/-- The key stability lemma: two filters that agree on platform-agnostic
versions select the same last maximum, whenever both selected elements are
platform-agnostic. -/
theorem lastMax_filterMap_agree
    (f1 f2 : VersionRec → Option (VersionRec × VersionT))
    (hagree : ∀ v, v.targetPlatform = none → f1 v = f2 v)
    (horig1 : ∀ v p, f1 v = some p → p.1 = v)
    (horig2 : ∀ v p, f2 v = some p → p.1 = v) :
    ∀ (l : List VersionRec) (p1 p2 : VersionRec × VersionT),
      lastMax pairLe (l.filterMap f1) = some p1 → p1.1.targetPlatform = none →
      lastMax pairLe (l.filterMap f2) = some p2 → p2.1.targetPlatform = none →
      p1 = p2 := by
  intro l
  induction l using List.reverseRecOn with
  | nil =>
    intro p1 p2 h1 _ _ _
    cases h1
  | append_singleton l x ih =>
    intro p1 p2 h1 hp1 h2 hp2
    rw [List.filterMap_append] at h1 h2
    have hmemf1 : ∀ q : VersionRec × VersionT, q.1.targetPlatform = none →
        q ∈ l.filterMap f2 → q ∈ l.filterMap f1 := by
      intro q hq hmem
      obtain ⟨v, hvmem, hfv⟩ := List.mem_filterMap.mp hmem
      have hqv : q.1 = v := horig2 v q hfv
      exact List.mem_filterMap.mpr ⟨v, hvmem, by rw [hagree v (hqv ▸ hq)]; exact hfv⟩
    have hmemf2 : ∀ q : VersionRec × VersionT, q.1.targetPlatform = none →
        q ∈ l.filterMap f1 → q ∈ l.filterMap f2 := by
      intro q hq hmem
      obtain ⟨v, hvmem, hfv⟩ := List.mem_filterMap.mp hmem
      have hqv : q.1 = v := horig1 v q hfv
      exact List.mem_filterMap.mpr ⟨v, hvmem, by rw [← hagree v (hqv ▸ hq)]; exact hfv⟩
    by_cases hx : x.targetPlatform = none
    · have hfx : f1 x = f2 x := hagree x hx
      cases hf : f2 x with
      | none =>
        rw [show List.filterMap f1 [x] = [] from by simp [List.filterMap_cons, hfx, hf],
          List.append_nil] at h1
        rw [show List.filterMap f2 [x] = [] from by simp [List.filterMap_cons, hf],
          List.append_nil] at h2
        exact ih p1 p2 h1 hp1 h2 hp2
      | some q =>
        rw [show List.filterMap f1 [x] = [q] from by simp [List.filterMap_cons, hfx, hf],
          lastMax_concat] at h1
        rw [show List.filterMap f2 [x] = [q] from by simp [List.filterMap_cons, hf],
          lastMax_concat] at h2
        cases hm1 : lastMax pairLe (l.filterMap f1) with
        | none =>
          rw [hm1] at h1
          have hp1q : p1 = q := lmStep_none_eq q p1 h1
          cases hm2 : lastMax pairLe (l.filterMap f2) with
          | none =>
            rw [hm2] at h2
            rw [hp1q, lmStep_none_eq q p2 h2]
          | some b =>
            rw [hm2] at h2
            rcases lmStep_some_cases b q p2 h2 with ⟨rfl, -⟩ | ⟨rfl, -⟩
            · exact hp1q
            · exfalso
              have hbmem : p2 ∈ l.filterMap f2 := lastMax_mem pairLe _ p2 hm2
              have : p2 ∈ l.filterMap f1 := hmemf1 p2 hp2 hbmem
              rw [(lastMax_none_iff pairLe _).mp hm1] at this
              cases this
        | some a =>
          rw [hm1] at h1
          cases hm2 : lastMax pairLe (l.filterMap f2) with
          | none =>
            rw [hm2] at h2
            have hp2q : p2 = q := lmStep_none_eq q p2 h2
            rcases lmStep_some_cases a q p1 h1 with ⟨rfl, -⟩ | ⟨rfl, -⟩
            · exact hp2q.symm
            · exfalso
              have hamem : p1 ∈ l.filterMap f1 := lastMax_mem pairLe _ p1 hm1
              have : p1 ∈ l.filterMap f2 := hmemf2 p1 hp1 hamem
              rw [(lastMax_none_iff pairLe _).mp hm2] at this
              cases this
          | some b =>
            rw [hm2] at h2
            rcases lmStep_some_cases a q p1 h1 with ⟨he1, haq⟩ | ⟨he1, haq⟩ <;>
              rcases lmStep_some_cases b q p2 h2 with ⟨he2, hbq⟩ | ⟨he2, hbq⟩
            · rw [he1, he2]
            · exfalso
              have hp2b : b.1.targetPlatform = none := by rw [← he2]; exact hp2
              have hbmem : b ∈ l.filterMap f1 :=
                hmemf1 b hp2b (lastMax_mem pairLe _ b hm2)
              have hba : pairLe b a = true :=
                lastMax_isUB pairLe pairLe_total pairLe_trans _ a hm1 b hbmem
              have : pairLe b q = true := pairLe_trans b a q hba haq
              rw [this] at hbq
              cases hbq
            · exfalso
              have hp1a : a.1.targetPlatform = none := by rw [← he1]; exact hp1
              have hamem : a ∈ l.filterMap f2 :=
                hmemf2 a hp1a (lastMax_mem pairLe _ a hm1)
              have hab : pairLe a b = true :=
                lastMax_isUB pairLe pairLe_total pairLe_trans _ b hm2 a hamem
              have : pairLe a q = true := pairLe_trans a b q hab hbq
              rw [this] at haq
              cases haq
            · rw [he1, he2]
              exact ih a b hm1 (by rw [← he1]; exact hp1) hm2 (by rw [← he2]; exact hp2)
    · have hstep1 : lastMax pairLe (l.filterMap f1) = some p1 := by
        cases hf : f1 x with
        | none =>
          rw [show List.filterMap f1 [x] = [] from by simp [List.filterMap_cons, hf],
            List.append_nil] at h1
          exact h1
        | some q =>
          rw [show List.filterMap f1 [x] = [q] from by simp [List.filterMap_cons, hf],
            lastMax_concat] at h1
          have hq1 : q.1 = x := horig1 x q hf
          cases hm1 : lastMax pairLe (l.filterMap f1) with
          | none =>
            exfalso
            rw [hm1] at h1
            have := lmStep_none_eq q p1 h1
            rw [this, hq1] at hp1
            exact hx hp1
          | some a =>
            rw [hm1] at h1
            rcases lmStep_some_cases a q p1 h1 with ⟨rfl, -⟩ | ⟨rfl, -⟩
            · exact absurd (hq1 ▸ hp1) hx
            · rfl
      have hstep2 : lastMax pairLe (l.filterMap f2) = some p2 := by
        cases hf : f2 x with
        | none =>
          rw [show List.filterMap f2 [x] = [] from by simp [List.filterMap_cons, hf],
            List.append_nil] at h2
          exact h2
        | some q =>
          rw [show List.filterMap f2 [x] = [q] from by simp [List.filterMap_cons, hf],
            lastMax_concat] at h2
          have hq1 : q.1 = x := horig2 x q hf
          cases hm2 : lastMax pairLe (l.filterMap f2) with
          | none =>
            exfalso
            rw [hm2] at h2
            have := lmStep_none_eq q p2 h2
            rw [this, hq1] at hp2
            exact hx hp2
          | some b =>
            rw [hm2] at h2
            rcases lmStep_some_cases b q p2 h2 with ⟨rfl, -⟩ | ⟨rfl, -⟩
            · exact absurd (hq1 ▸ hp2) hx
            · rfl
      exact ih p1 p2 hstep1 hp1 hstep2 hp2

/-- Keying the filtered survivors is the `filterMap` of `keyedFn`, whenever
it completes without a fault. -/
theorem keyedOf_filter (engine platform : String) :
    ∀ (versions : List VersionRec) (keyed : List (VersionRec × VersionT)),
      keyedOf (versions.filter (keepB engine platform)) = .ok keyed →
      keyed = versions.filterMap (keyedFn engine platform)
  | [], keyed, h => by
    simp only [List.filter_nil, keyedOf, Except.ok.injEq] at h
    simp [← h]
  | v :: rest, keyed, h => by
    by_cases hk : keepB engine platform v = true
    · rw [List.filter_cons_of_pos hk, keyedOf] at h
      split at h
      · rename_i kv hs
        split at h
        · rename_i k2 hrec
          rw [Except.ok.injEq] at h
          rw [List.filterMap_cons, show keyedFn engine platform v = some (v, kv) from by
            simp [keyedFn, hk, hs]]
          rw [← h, keyedOf_filter engine platform rest k2 hrec]
        · cases h
      · cases h
    · rw [List.filter_cons_of_neg (by simpa using hk)] at h
      rw [List.filterMap_cons, show keyedFn engine platform v = none from by
        simp [keyedFn, hk]]
      exact keyedOf_filter engine platform rest keyed h

/-- The filter decision for a platform-agnostic version does not depend on
the requested platform. -/
theorem keepB_untagged (engine p1 p2 : String) (v : VersionRec)
    (h : v.targetPlatform = none) : keepB engine p1 v = keepB engine p2 v := by
  simp [keepB, h]

theorem keyedFn_agree (engine p1 p2 : String) (v : VersionRec)
    (h : v.targetPlatform = none) : keyedFn engine p1 v = keyedFn engine p2 v := by
  rw [keyedFn, keyedFn, keepB_untagged engine p1 p2 v h]

theorem keyedFn_orig (engine platform : String) (v : VersionRec) (q : VersionRec × VersionT)
    (h : keyedFn engine platform v = some q) : q.1 = v := by
  rw [keyedFn] at h
  split at h
  · cases hs : version_serial v.version with
    | none => rw [hs] at h; cases h
    | some k =>
      rw [hs] at h
      replace h : some (v, k) = some q := h
      rw [Option.some.injEq] at h
      rw [← h]
  · cases h

/-- A successful selection is the last maximum of the keyed filterMap. -/
theorem select_version_lastMax (engine platform : String) (versions : List VersionRec)
    (v : VersionRec) (h : select_version engine platform versions = .ok v) :
    ∃ p, lastMax pairLe (versions.filterMap (keyedFn engine platform)) = some p ∧ p.1 = v := by
  rw [select_version] at h
  cases hf : filter_version engine platform versions with
  | error e => rw [hf] at h; cases h
  | ok fl =>
    rw [hf] at h
    replace h : (match keyedOf fl with
        | Except.error e => (Except.error e : Except Err VersionRec)
        | Except.ok keyed =>
          match (sortList pairLe keyed).getLast? with
          | some p => Except.ok p.1
          | none => Except.error Err.noCompatible) = Except.ok v := h
    cases hk : keyedOf fl with
    | error e => rw [hk] at h; cases h
    | ok keyed =>
      rw [hk] at h
      replace h : (match (sortList pairLe keyed).getLast? with
          | some p => (Except.ok p.1 : Except Err VersionRec)
          | none => Except.error Err.noCompatible) = Except.ok v := h
      rw [getLast?_sortList pairLe pairLe_total pairLe_trans keyed] at h
      cases hlm : lastMax pairLe keyed with
      | none => rw [hlm] at h; cases h
      | some p =>
        rw [hlm] at h
        replace h : Except.ok p.1 = Except.ok v := h
        rw [Except.ok.injEq] at h
        have hfl : fl = versions.filter (keepB engine platform) :=
          filter_version_ok engine platform versions fl hf
        rw [hfl] at hk
        have hkeyed := keyedOf_filter engine platform versions keyed hk
        rw [hkeyed] at hlm
        exact ⟨p, hlm, h⟩

/-- The filename just added to the plan maps to the added descriptor. -/
theorem plan_add_lookup (dl dl2 : List (String × Download)) (vsix : String) (d : Download)
    (h : plan_add dl vsix d = .ok dl2) : planFind dl2 vsix = some d := by
  rw [plan_add] at h
  cases hpf : planFind dl vsix with
  | some existing =>
    rw [hpf] at h
    replace h : (if existing = d then (Except.ok dl : Except Err (List (String × Download)))
        else Except.error Err.consistency) = Except.ok dl2 := h
    by_cases he : existing = d
    · rw [if_pos he, Except.ok.injEq] at h
      rw [← h, hpf, he]
    · rw [if_neg he] at h
      cases h
  | none =>
    rw [hpf] at h
    replace h : Except.ok (dl ++ [(vsix, d)]) = Except.ok dl2 := h
    rw [Except.ok.injEq] at h
    rw [← h]
    rw [planFind] at hpf ⊢
    have : dl.find? (fun e => e.1 == vsix) = none := by
      cases hfind : dl.find? (fun e => e.1 == vsix) with
      | none => rfl
      | some e => rw [hfind] at hpf; cases hpf
    rw [List.find?_append, this]
    simp

/-- C10: for an extension other than the hard-coded override whose selected
best version carries no target-platform tag on either requested platform,
resolving for `linux-x64` and `linux-arm64` selects the same version record
and yields the same filename with a structurally identical descriptor: the
second resolution is a no-op on the plan and the per-extension filename set
is a singleton. -/
theorem get_download_platform_agnostic_spec
    (engine : String) (ext : ExtRecord) (dl0 dl1 : List (String × Download))
    (v1 v2 : VersionRec) (vsix : String)
    (h1 : select_version engine "linux-x64" ext.versions = .ok v1)
    (ht1 : v1.targetPlatform = none)
    (h2 : select_version engine "linux-arm64" ext.versions = .ok v2)
    (ht2 : v2.targetPlatform = none)
    (hname : ext.publisherName ++ "." ++ ext.extensionName ≠ "vadimcn.vscode-lldb")
    (hfv : find_version (ext.publisherName ++ "." ++ ext.extensionName) engine ext.versions
      "linux-x64" dl0 = .ok (vsix, dl1)) :
    v1 = v2 ∧
    find_version (ext.publisherName ++ "." ++ ext.extensionName) engine ext.versions
      "linux-arm64" dl1 = .ok (vsix, dl1) ∧
    Extension_get_download engine ext dl0 = .ok ([vsix], dl1) := by
  obtain ⟨p1, hlm1, hp1⟩ := select_version_lastMax engine "linux-x64" ext.versions v1 h1
  obtain ⟨p2, hlm2, hp2⟩ := select_version_lastMax engine "linux-arm64" ext.versions v2 h2
  have hps : p1 = p2 := lastMax_filterMap_agree
    (keyedFn engine "linux-x64") (keyedFn engine "linux-arm64")
    (fun v hv => keyedFn_agree engine "linux-x64" "linux-arm64" v hv)
    (keyedFn_orig engine "linux-x64") (keyedFn_orig engine "linux-arm64")
    ext.versions p1 p2 hlm1 (by rw [hp1]; exact ht1) hlm2 (by rw [hp2]; exact ht2)
  have hv12 : v1 = v2 := by rw [← hp1, ← hp2, hps]
  subst hv12
  refine ⟨rfl, ?_⟩
  have hfv0 := hfv
  rw [find_version, h1] at hfv
  simp only [if_neg hname] at hfv
  rw [ht1] at hfv
  simp only at hfv
  cases hpa : plan_add dl0
      (ext.publisherName ++ "." ++ ext.extensionName ++ "-" ++ v1.version ++ ".vsix")
      ⟨v1.version, get_property v1 "Microsoft.VisualStudio.Code.Engine",
        v1.assetUri ++ "/Microsoft.VisualStudio.Services.VSIXPackage", v1.lastUpdated⟩ with
  | error e =>
    rw [hpa] at hfv
    cases hfv
  | ok d2 =>
    rw [hpa] at hfv
    rw [Except.ok.injEq, Prod.mk.injEq] at hfv
    obtain ⟨hvsix, hdl⟩ := hfv
    subst hdl
    have hlook : planFind d2
        (ext.publisherName ++ "." ++ ext.extensionName ++ "-" ++ v1.version ++ ".vsix")
        = some ⟨v1.version, get_property v1 "Microsoft.VisualStudio.Code.Engine",
            v1.assetUri ++ "/Microsoft.VisualStudio.Services.VSIXPackage", v1.lastUpdated⟩ :=
      plan_add_lookup dl0 d2 _ _ hpa
    have hpa2 : plan_add d2
        (ext.publisherName ++ "." ++ ext.extensionName ++ "-" ++ v1.version ++ ".vsix")
        ⟨v1.version, get_property v1 "Microsoft.VisualStudio.Code.Engine",
          v1.assetUri ++ "/Microsoft.VisualStudio.Services.VSIXPackage", v1.lastUpdated⟩
        = .ok d2 :=
      (plan_add_spec d2
        (ext.publisherName ++ "." ++ ext.extensionName ++ "-" ++ v1.version ++ ".vsix")
        ⟨v1.version, get_property v1 "Microsoft.VisualStudio.Code.Engine",
          v1.assetUri ++ "/Microsoft.VisualStudio.Services.VSIXPackage", v1.lastUpdated⟩
        ⟨v1.version, get_property v1 "Microsoft.VisualStudio.Code.Engine",
          v1.assetUri ++ "/Microsoft.VisualStudio.Services.VSIXPackage", v1.lastUpdated⟩).1
        hlook
    have harm : find_version (ext.publisherName ++ "." ++ ext.extensionName) engine
        ext.versions "linux-arm64" d2 = .ok (vsix, d2) := by
      rw [find_version, h2]
      simp only [if_neg hname]
      rw [ht2]
      exact (show (match plan_add d2
          (ext.publisherName ++ "." ++ ext.extensionName ++ "-" ++ v1.version ++ ".vsix")
          ⟨v1.version, get_property v1 "Microsoft.VisualStudio.Code.Engine",
            v1.assetUri ++ "/Microsoft.VisualStudio.Services.VSIXPackage", v1.lastUpdated⟩ with
        | Except.error e => (Except.error e : Except Err (String × List (String × Download)))
        | Except.ok downloads2 =>
          Except.ok (ext.publisherName ++ "." ++ ext.extensionName ++ "-" ++ v1.version
            ++ ".vsix", downloads2)) = Except.ok (vsix, d2) from by
          rw [hpa2, ← hvsix])
    refine ⟨harm, ?_⟩
    rw [Extension_get_download]
    exact (show (match find_version (ext.publisherName ++ "." ++ ext.extensionName) engine
          ext.versions "linux-x64" dl0 with
        | Except.error e => (Except.error e : Except Err (List String × List (String × Download)))
        | Except.ok (f1, dd1) =>
          match find_version (ext.publisherName ++ "." ++ ext.extensionName) engine
              ext.versions "linux-arm64" dd1 with
          | Except.error e => Except.error e
          | Except.ok (f2, dd2) => Except.ok (setInsert (setInsert [] f1) f2, dd2))
        = Except.ok ([vsix], d2) from by
      rw [hfv0]
      exact (show (match find_version (ext.publisherName ++ "." ++ ext.extensionName) engine
            ext.versions "linux-arm64" d2 with
          | Except.error e => (Except.error e : Except Err (List String × List (String × Download)))
          | Except.ok (f2, dd2) => Except.ok (setInsert (setInsert [] vsix) f2, dd2))
          = Except.ok ([vsix], d2) from by
        rw [harm]
        exact (show Except.ok (setInsert (setInsert [] vsix) vsix, d2)
            = (Except.ok ([vsix], d2) : Except Err (List String × List (String × Download)))
            from by
          rw [show setInsert (setInsert [] vsix) vsix = [vsix] from by simp [setInsert]])))

/-- Witness for C10 at a concrete two-version platform-agnostic
extension. -/
theorem get_download_platform_agnostic_spec_witness :
    mkVersion "1.2.0" "https://new" = mkVersion "1.2.0" "https://new" ∧
    find_version (c10_ext.publisherName ++ "." ++ c10_ext.extensionName) "1.50.0"
        c10_ext.versions "linux-arm64"
        [("pub.ext-1.2.0.vsix",
          ⟨"1.2.0", some "*", "https://new/Microsoft.VisualStudio.Services.VSIXPackage",
            "2024-01-01T00:00:00Z"⟩)]
      = .ok ("pub.ext-1.2.0.vsix",
          [("pub.ext-1.2.0.vsix",
            ⟨"1.2.0", some "*", "https://new/Microsoft.VisualStudio.Services.VSIXPackage",
              "2024-01-01T00:00:00Z"⟩)]) ∧
    Extension_get_download "1.50.0" c10_ext []
      = .ok (["pub.ext-1.2.0.vsix"],
          [("pub.ext-1.2.0.vsix",
            ⟨"1.2.0", some "*", "https://new/Microsoft.VisualStudio.Services.VSIXPackage",
              "2024-01-01T00:00:00Z"⟩)]) :=
  get_download_platform_agnostic_spec "1.50.0" c10_ext []
    [("pub.ext-1.2.0.vsix",
      ⟨"1.2.0", some "*", "https://new/Microsoft.VisualStudio.Services.VSIXPackage",
        "2024-01-01T00:00:00Z"⟩)]
    (mkVersion "1.2.0" "https://new") (mkVersion "1.2.0" "https://new") "pub.ext-1.2.0.vsix"
    (by decide) (by decide) (by decide) (by decide) (by decide) (by decide)

end Goffline
